import Mathlib

/-!
Verification development for the ThreadMap repository.

The Python sources (threadmap/models.py, threadmap/chain.py,
threadmap/analysis.py, threadmap/io.py) are shallowly embedded below.
Python floats are modelled as exact rationals, Python dicts as
insertion-ordered association lists (re-assignment of a present key keeps
its position and updates the value, exactly as in CPython), and raised
exceptions as `Except String`.  The networkx library functions the code
calls are modelled from their documented contracts, as noted at each use.
-/

namespace ThreadMap

/-! ## Enumerations (threadmap/models.py) -/

inductive ActorType
  | state | proxy | hacktivist | criminal | automated | insider
deriving DecidableEq, Repr

inductive ActionDomain
  | cyber | cognitive | physical | hybrid
deriving DecidableEq, Repr

inductive CapabilityType
  | exploit | tooling | tradecraft | access | data
deriving DecidableEq, Repr

inductive InfrastructureType
  | social_media | email | messaging | server | domain | physical | media | government
deriving DecidableEq, Repr

inductive NarrativeType
  | disinformation | propaganda | leak | amplification | framing
deriving DecidableEq, Repr

inductive EffectType
  | behavioral_change | data_loss | access_gained | reputation_damage
  | operational_disruption | narrative_adoption
deriving DecidableEq, Repr

inductive EdgeType
  | dependency | enables | amplifies | triggers
deriving DecidableEq, Repr

/-! ## Entity models (threadmap/models.py) -/

structure Actor where
  id : String
  name : String
  actor_type : ActorType
  capabilities : List String
  known_aliases : List String
  attribution_confidence : Rat
deriving DecidableEq, Repr

structure Action where
  id : String
  name : String
  description : String
  domain : ActionDomain
  attack_ids : List String
  disarm_ids : List String
  sct_codes : List String
  actor_id : Option String
  platform_id : Option String
  tools : List String
  duration_hours : Option Rat
  success_probability : Rat
  detection_surface : List String
deriving DecidableEq, Repr

structure Capability where
  id : String
  name : String
  capability_type : CapabilityType
  description : String
  perishable : Bool
  ttl_hours : Option Rat
deriving DecidableEq, Repr

structure Infrastructure where
  id : String
  name : String
  infra_type : InfrastructureType
  reach_estimate : Option String
  detection_difficulty : Rat
deriving DecidableEq, Repr

structure Narrative where
  id : String
  name : String
  narrative_type : NarrativeType
  description : String
  target_audience : Option String
  sct_codes : List String
  platforms : List String
deriving DecidableEq, Repr

structure Target where
  id : String
  name : String
  target_type : String
  description : String
  vulnerabilities : List String
deriving DecidableEq, Repr

structure Effect where
  id : String
  name : String
  effect_type : EffectType
  description : String
  severity : Rat
  reversibility : Rat
deriving DecidableEq, Repr

structure Relationship where
  source_id : String
  target_id : String
  edge_type : EdgeType
  resource_id : Option String
  description : String
deriving DecidableEq, Repr

/-- The closed union `Entity = Actor | Action | ...` of models.py. -/
inductive Entity
  | actor (a : Actor)
  | action (a : Action)
  | capability (a : Capability)
  | infrastructure (a : Infrastructure)
  | narrative (a : Narrative)
  | target (a : Target)
  | effect (a : Effect)
deriving DecidableEq, Repr

def Entity.id : Entity → String
  | .actor a => a.id
  | .action a => a.id
  | .capability a => a.id
  | .infrastructure a => a.id
  | .narrative a => a.id
  | .target a => a.id
  | .effect a => a.id

def Entity.name : Entity → String
  | .actor a => a.name
  | .action a => a.name
  | .capability a => a.name
  | .infrastructure a => a.name
  | .narrative a => a.name
  | .target a => a.name
  | .effect a => a.name

/-- `type(entity).__name__` as used by the analysis and io modules. -/
def Entity.typeName : Entity → String
  | .actor _ => "Actor"
  | .action _ => "Action"
  | .capability _ => "Capability"
  | .infrastructure _ => "Infrastructure"
  | .narrative _ => "Narrative"
  | .target _ => "Target"
  | .effect _ => "Effect"

def Entity.isNarrative : Entity → Bool
  | .narrative _ => true
  | _ => false

/-! ## Insertion-ordered dictionaries (CPython dict semantics) -/

/-- CPython dict assignment `d[k] = v`: an existing key keeps its position and
gets the new value, a fresh key is appended at the end. -/
def dictInsert [DecidableEq κ] (l : List (κ × α)) (k : κ) (v : α) : List (κ × α) :=
  if k ∈ l.map Prod.fst then
    l.map (fun p => if p.1 = k then (k, v) else p)
  else
    l ++ [(k, v)]

/-- CPython `d.get(k)` (`None` when absent, first=only occurrence wins). -/
def dictGet [DecidableEq κ] (l : List (κ × α)) (k : κ) : Option α :=
  match l.find? (fun p => p.1 = k) with
  | some p => some p.2
  | none => none

/-! ## HybridChain (threadmap/chain.py) -/

/-- The data stored on a graph edge by `add_relationship`. -/
structure EdgeData where
  edge_type : EdgeType
  resource_id : Option String
  description : String
deriving DecidableEq, Repr

/-- The state of a `HybridChain`: the `_entities` dict and the `nx.DiGraph`.

The node set of `self.graph` always coincides with the key set of
`self._entities` (`add_entity` inserts into both; `add_relationship`
verifies both endpoints are present before adding the edge), so the graph
is represented by its edge dict alone, keyed by `(source, target)` —
`nx.DiGraph` admits no parallel edges and `add_edge` on an existing pair
overwrites the data, i.e. the dict-insert semantics above. -/
structure HybridChain where
  chain_id : String
  name : String
  description : String
  entities : List (String × Entity)
  edges : List ((String × String) × EdgeData)
deriving DecidableEq, Repr

namespace HybridChain

/-- The constructor `HybridChain(chain_id, name, description="")`. -/
def init (chain_id name description : String) : HybridChain :=
  ⟨chain_id, name, description, [], []⟩

/-- Graph node ids in insertion order (`self.graph.nodes`). -/
def nodes (c : HybridChain) : List String :=
  c.entities.map Prod.fst

/-- The directed edge pairs of the graph (topology only). -/
def edgePairs (c : HybridChain) : List (String × String) :=
  c.edges.map Prod.fst

/-- `add_entity(entity)`: insert/overwrite by id, in `_entities` and as a
graph node (the graph keeps all incident edges on overwrite). -/
def add_entity (c : HybridChain) (e : Entity) : HybridChain :=
  { c with entities := dictInsert c.entities e.id e }

/-- `get_entity(entity_id)`. -/
def get_entity (c : HybridChain) (i : String) : Option Entity :=
  dictGet c.entities i

/-- `add_relationship(rel)`: raises `ValueError` when an endpoint id is not a
key of `_entities`, otherwise adds the edge with its data. -/
def add_relationship (c : HybridChain) (r : Relationship) : Except String HybridChain :=
  if r.source_id ∉ c.nodes then
    .error "Source entity not in chain"
  else if r.target_id ∉ c.nodes then
    .error "Target entity not in chain"
  else
    .ok { c with edges := dictInsert c.edges (r.source_id, r.target_id) ⟨r.edge_type, r.resource_id, r.description⟩ }

/-- In-degree of `v` in the graph. -/
def inDegree (c : HybridChain) (v : String) : Nat :=
  (c.edgePairs.filter (fun e => e.2 = v)).length

/-- Out-degree of `v` in the graph. -/
def outDegree (c : HybridChain) (v : String) : Nat :=
  (c.edgePairs.filter (fun e => e.1 = v)).length

/-- `[n for n in self.graph.nodes if self.graph.in_degree(n) == 0]`. -/
def sources (c : HybridChain) : List String :=
  c.nodes.filter (fun n => c.inDegree n = 0)

/-- `[n for n in self.graph.nodes if self.graph.out_degree(n) == 0]`. -/
def sinks (c : HybridChain) : List String :=
  c.nodes.filter (fun n => c.outDegree n = 0)

end HybridChain

/-! ## Topological sorting (model of `nx.topological_sort` /
`nx.is_directed_acyclic_graph`)

Kahn's algorithm: repeatedly emit a node of the remaining subgraph with no
incoming edge from a remaining node.  `nx.topological_sort` is this
algorithm with a particular emission order; every claim below depends only
on the output being *some* topological order (the spec explicitly allows
any), and `nx.is_directed_acyclic_graph` holds exactly when the sort
completes. -/

/-- Does `v` have an incoming edge whose source is still in `rem`? -/
def hasIncomingFrom (E : List (String × String)) (rem : List String) (v : String) : Bool :=
  E.any (fun e => e.2 = v && rem.contains e.1)

def topoAux (E : List (String × String)) : Nat → List String → Option (List String)
  | 0, rem => if rem.isEmpty then some [] else none
  | fuel + 1, rem =>
    match rem.find? (fun v => ¬ hasIncomingFrom E rem v) with
    | none => if rem.isEmpty then some [] else none
    | some v => (topoAux E fuel (rem.erase v)).map (v :: ·)

def HybridChain.topological_sort (c : HybridChain) : Option (List String) :=
  topoAux c.edgePairs c.nodes.length c.nodes

/-- `is_valid_dag()` — `nx.is_directed_acyclic_graph(self.graph)`. -/
def HybridChain.is_valid_dag (c : HybridChain) : Bool :=
  c.topological_sort.isSome

/-- `get_chain()`. -/
def HybridChain.get_chain (c : HybridChain) : Except String (List String) :=
  match c.topological_sort with
  | none => .error "Chain contains cycles - not a valid DAG"
  | some l => .ok l

/-! ## Critical path (threadmap/chain.py, `get_critical_path`) -/

/-- The inner `_weight(u, v)` closure: `-entity.duration_hours` when the
target is an `Action` whose `duration_hours` is truthy (non-`None` and
non-zero), else `0`. -/
def HybridChain.weightFn (c : HybridChain) (v : String) : Rat :=
  match c.get_entity v with
  | some (.action a) =>
    match a.duration_hours with
    | some d => if d = 0 then 0 else -d
    | none => 0
  | _ => 0

/-- Successor list of `u` in the edge list `E`. -/
def succsOf (E : List (String × String)) (u : String) : List String :=
  (E.filter (fun e => e.1 = u)).map Prod.snd

/-- All simple paths from `u` to `v` (at most `fuel` nodes) avoiding
`visited`.  This is the search both `nx.all_simple_paths` performs and over
which `nx.bellman_ford_path` minimises (shortest paths are simple here);
for `u = v` the trivial one-node path is produced, as networkx does. -/
def simplePathsAux (E : List (String × String)) :
    Nat → String → String → List String → List (List String)
  | 0, _, _, _ => []
  | fuel + 1, u, v, visited =>
    if u = v then [[u]]
    else
      ((succsOf E u).filter (fun w => w ∉ u :: visited)).flatMap
        (fun w => (simplePathsAux E fuel w v (u :: visited)).map (u :: ·))

/-- Total weight of a path: the sum of `w` over the second endpoint of each
traversed edge (the weight callable of the code depends on the target
only). -/
def pathWeight (w : String → Rat) : List String → Rat
  | _ :: b :: rest => w b + pathWeight w (b :: rest)
  | _ => 0

/-- First element of minimal measure (model of the unspecified tie-break of
`nx.bellman_ford_path`; no theorem below depends on which minimiser the
library picks). -/
def argminBy (f : α → Rat) : List α → Option α
  | [] => none
  | x :: xs =>
    match argminBy f xs with
    | none => some x
    | some y => if f x ≤ f y then some x else some y

/-- Model of `nx.bellman_ford_path(g, s, t, weight)`: a path from `s` to `t`
of minimal total weight, `none` when `t` is unreachable (the library then
raises `NetworkXNoPath`).  Sound because the graphs it is applied to carry
no negative cycle reachable on an `s`–`t` walk whenever the chain is a DAG
avoiding the reserved virtual ids. -/
def bellmanFordPath (E : List (String × String)) (w : String → Rat)
    (fuel : Nat) (s t : String) : Option (List String) :=
  argminBy (pathWeight w) (simplePathsAux E fuel s t [])

/-- The virtual-node augmented graph built by `get_critical_path`:
the copied edges, then `__src__ -> s` for each zero-in-degree `s`, then
`t -> __sink__` for each zero-out-degree `t`. -/
def HybridChain.augEdges (c : HybridChain) : List (String × String) :=
  c.edgePairs ++ c.sources.map (fun s => ("__src__", s))
    ++ c.sinks.map (fun t => (t, "__sink__"))

/-- `get_critical_path()`. -/
def HybridChain.get_critical_path (c : HybridChain) : Except String (List String) :=
  match c.topological_sort with
  | none => .error "Chain contains cycles - not a valid DAG"
  | some topo =>
    if c.nodes.length = 0 then .ok []
    else if c.sources.isEmpty || c.sinks.isEmpty then .ok topo
    else
      match bellmanFordPath c.augEdges c.weightFn (c.nodes.length + 2) "__src__" "__sink__" with
      | some p => .ok (p.filter (fun n => n ≠ "__src__" && n ≠ "__sink__"))
      | none => .ok []

/-! ## Reachability (model of `nx.descendants`)

`nx.descendants(G, n)` is the set of nodes reachable from `n`, excluding
`n` itself.  It is computed as the saturation of the one-step successor
relation; `edgePairs.length + 1` iterations suffice since each productive
iteration discovers a new edge target. -/

/-- One saturation step: add the target of every edge whose source is
already collected. -/
def reachStep (E : List (String × String)) (vs : List String) : List String :=
  vs ++ (E.filter (fun e => vs.contains e.1 && !vs.contains e.2)).map Prod.snd

def reachIter (E : List (String × String)) : Nat → List String → List String
  | 0, vs => vs
  | n + 1, vs => reachStep E (reachIter E n vs)

/-- The full reachable set of `u` (including `u`). -/
def reachSet (E : List (String × String)) (u : String) : List String :=
  reachIter E (E.length + 1) [u]

/-- `len(nx.descendants(self.graph, node_id))`: the number of graph nodes
other than `n` reachable from `n`. -/
def HybridChain.descendantCount (c : HybridChain) (n : String) : Nat :=
  ((c.nodes.filter (fun m => m ≠ n && (reachSet c.edgePairs n).contains m))).length

/-- `intervention_score(node_id)`: raises `ValueError` for an absent node,
else the descendant count. -/
def HybridChain.intervention_score (c : HybridChain) (n : String) : Except String Nat :=
  if n ∉ c.nodes then .error "Node not in chain"
  else .ok (c.descendantCount n)

/-- `get_entities_by_type` restricted to the one instantiation the claims
need (`Narrative`): the ids of all Narrative entities, in dict order. -/
def HybridChain.narrativeIds (c : HybridChain) : List String :=
  (c.entities.filter (fun p => p.2.isNarrative)).map Prod.fst

/-! ## Analysis (threadmap/analysis.py) -/

/-- `narrative_threads(chain)`: all simple source-to-sink paths containing
at least one Narrative entity; `[]` immediately when the chain has no
Narrative entity.  `nx.all_simple_paths` is modelled by `simplePathsAux`
(the trivial path `[s]` is yielded when source equals target, and simple
paths respect the default cutoff `len(G) - 1` edges). -/
def narrative_threads (c : HybridChain) : List (List String) :=
  let nids := c.narrativeIds
  if nids.isEmpty then []
  else
    c.sources.flatMap (fun s =>
      c.sinks.flatMap (fun t =>
        (simplePathsAux c.edgePairs (c.nodes.length + 1) s t []).filter
          (fun p => p.any (fun n => nids.contains n))))

/-- Python `round(x, 2)` on an exact value: round half to even at two
decimal places. -/
def roundHalfEven (q : Rat) : Int :=
  if q - Rat.floor q < 1 / 2 then Rat.floor q
  else if 1 / 2 < q - Rat.floor q then Rat.floor q + 1
  else if Rat.floor q % 2 = 0 then Rat.floor q else Rat.floor q + 1

def roundTo2 (q : Rat) : Rat :=
  (roundHalfEven (q * 100) : Rat) / 100

/-- One row of `intervention_ranking` output. -/
structure RankEntry where
  node_id : String
  entity_type : String
  name : String
  downstream_impact : Nat
  in_degree : Nat
  out_degree : Nat
  score : Rat
deriving DecidableEq, Repr

/-- The unsorted row for one node. -/
def rankEntryFor (c : HybridChain) (n : String) : RankEntry :=
  let ent := c.get_entity n
  let downstream := c.descendantCount n
  let in_deg := c.inDegree n
  let base : Rat := (downstream : Rat) * (1 + (in_deg : Rat))
  let score :=
    match ent with
    | some (.action a) => base * (2 - a.success_probability)
    | _ => base
  { node_id := n
    entity_type := match ent with | some e => e.typeName | none => "NoneType"
    name := match ent with | some e => e.name | none => n
    downstream_impact := downstream
    in_degree := in_deg
    out_degree := c.outDegree n
    score := roundTo2 score }

/-- Stable insertion step for the descending sort: the new element passes
every strictly greater score and lands before the first equal-or-smaller
one, preserving original order among ties. -/
def insertDesc (x : RankEntry) : List RankEntry → List RankEntry
  | [] => [x]
  | y :: t => if y.score ≤ x.score then x :: y :: t else y :: insertDesc x t

/-- Stable sort by score descending (`list.sort(key=..., reverse=True)` is
a stable descending sort; every stable sort under this total preorder
produces the same list). -/
def sortByScoreDesc : List RankEntry → List RankEntry
  | [] => []
  | x :: t => insertDesc x (sortByScoreDesc t)

/-- `intervention_ranking(chain)`: one row per graph node, sorted by score
descending. -/
def intervention_ranking (c : HybridChain) : List RankEntry :=
  sortByScoreDesc (c.nodes.map (rankEntryFor c))

/-! ## Well-formedness

Invariant of every chain constructed through the public API (established
by `init` and preserved by `add_entity` / `add_relationship`, proved
below): entity keys are distinct, edge keys are distinct, and every edge
endpoint is a present entity id. -/

def Wf (c : HybridChain) : Prop :=
  c.nodes.Nodup ∧ (c.edges.map Prod.fst).Nodup ∧
    ∀ e ∈ c.edgePairs, e.1 ∈ c.nodes ∧ e.2 ∈ c.nodes

instance (c : HybridChain) : Decidable (Wf c) := by
  unfold Wf
  infer_instance

/-! ## JSON serialization (threadmap/io.py)

`to_json` / `from_json` are modelled at the level of the JSON document:
`json.dumps`/`json.loads` (the Python json library) round-trip the
document itself, so the content of the claim is the construction of the
document from the chain and its decoding back through the pydantic
constructors.  Python floats are exact rationals here; `str`-valued enums
serialize as their value strings. -/

inductive Json where
  | null
  | str (s : String)
  | num (q : Rat)
  | boolean (b : Bool)
  | arr (xs : List Json)
  | obj (fields : List (String × Json))

def Json.getField (j : Json) (k : String) : Option Json :=
  match j with
  | .obj fs =>
    match fs.find? (fun p => p.1 = k) with
    | some p => some p.2
    | none => none
  | _ => none

def Json.asStr : Json → Except String String
  | .str s => .ok s
  | _ => .error "expected string"

def Json.asRat : Json → Except String Rat
  | .num q => .ok q
  | _ => .error "expected number"

def Json.asBool : Json → Except String Bool
  | .boolean b => .ok b
  | _ => .error "expected boolean"

/-- Element-wise validation of a string array (pydantic `list[str]`). -/
def parseStrings : List Json → Except String (List String)
  | [] => .ok []
  | j :: t => do
    let s ← Json.asStr j
    let r ← parseStrings t
    .ok (s :: r)

def Json.asStrList : Json → Except String (List String)
  | .arr xs => parseStrings xs
  | _ => .error "expected array of strings"

def Json.asOptStr : Json → Except String (Option String)
  | .null => .ok none
  | .str s => .ok (some s)
  | _ => .error "expected string or null"

def Json.asOptRat : Json → Except String (Option Rat)
  | .null => .ok none
  | .num q => .ok (some q)
  | _ => .error "expected number or null"

def Json.asObj : Json → Except String (List (String × Json))
  | .obj fs => .ok fs
  | _ => .error "expected object"

def Json.asArr : Json → Except String (List Json)
  | .arr xs => .ok xs
  | _ => .error "expected array"

/-- `data[k]` (KeyError when absent). -/
def reqField (j : Json) (k : String) : Except String Json :=
  match j.getField k with
  | some v => .ok v
  | none => .error ("missing field " ++ k)

/-- Parse a field that carries a pydantic default when absent. -/
def fieldD (j : Json) (k : String) (d : α) (parse : Json → Except String α) :
    Except String α :=
  match j.getField k with
  | none => .ok d
  | some v => parse v

def optStrJson : Option String → Json
  | none => .null
  | some s => .str s

def optRatJson : Option Rat → Json
  | none => .null
  | some q => .num q

/-! Enum value strings (models.py `str`-enums). -/

def ActorType.toStr : ActorType → String
  | .state => "state" | .proxy => "proxy" | .hacktivist => "hacktivist"
  | .criminal => "criminal" | .automated => "automated" | .insider => "insider"

def actorTypeOfStr : String → Except String ActorType
  | "state" => .ok .state | "proxy" => .ok .proxy | "hacktivist" => .ok .hacktivist
  | "criminal" => .ok .criminal | "automated" => .ok .automated | "insider" => .ok .insider
  | _ => .error "invalid ActorType"

def ActionDomain.toStr : ActionDomain → String
  | .cyber => "cyber" | .cognitive => "cognitive" | .physical => "physical" | .hybrid => "hybrid"

def actionDomainOfStr : String → Except String ActionDomain
  | "cyber" => .ok .cyber | "cognitive" => .ok .cognitive
  | "physical" => .ok .physical | "hybrid" => .ok .hybrid
  | _ => .error "invalid ActionDomain"

def CapabilityType.toStr : CapabilityType → String
  | .exploit => "exploit" | .tooling => "tooling" | .tradecraft => "tradecraft"
  | .access => "access" | .data => "data"

def capabilityTypeOfStr : String → Except String CapabilityType
  | "exploit" => .ok .exploit | "tooling" => .ok .tooling | "tradecraft" => .ok .tradecraft
  | "access" => .ok .access | "data" => .ok .data
  | _ => .error "invalid CapabilityType"

def InfrastructureType.toStr : InfrastructureType → String
  | .social_media => "social_media" | .email => "email" | .messaging => "messaging"
  | .server => "server" | .domain => "domain" | .physical => "physical"
  | .media => "media" | .government => "government"

def infrastructureTypeOfStr : String → Except String InfrastructureType
  | "social_media" => .ok .social_media | "email" => .ok .email
  | "messaging" => .ok .messaging | "server" => .ok .server
  | "domain" => .ok .domain | "physical" => .ok .physical
  | "media" => .ok .media | "government" => .ok .government
  | _ => .error "invalid InfrastructureType"

def NarrativeType.toStr : NarrativeType → String
  | .disinformation => "disinformation" | .propaganda => "propaganda"
  | .leak => "leak" | .amplification => "amplification" | .framing => "framing"

def narrativeTypeOfStr : String → Except String NarrativeType
  | "disinformation" => .ok .disinformation | "propaganda" => .ok .propaganda
  | "leak" => .ok .leak | "amplification" => .ok .amplification
  | "framing" => .ok .framing
  | _ => .error "invalid NarrativeType"

def EffectType.toStr : EffectType → String
  | .behavioral_change => "behavioral_change" | .data_loss => "data_loss"
  | .access_gained => "access_gained" | .reputation_damage => "reputation_damage"
  | .operational_disruption => "operational_disruption"
  | .narrative_adoption => "narrative_adoption"

def effectTypeOfStr : String → Except String EffectType
  | "behavioral_change" => .ok .behavioral_change | "data_loss" => .ok .data_loss
  | "access_gained" => .ok .access_gained | "reputation_damage" => .ok .reputation_damage
  | "operational_disruption" => .ok .operational_disruption
  | "narrative_adoption" => .ok .narrative_adoption
  | _ => .error "invalid EffectType"

def EdgeType.toStr : EdgeType → String
  | .dependency => "dependency" | .enables => "enables"
  | .amplifies => "amplifies" | .triggers => "triggers"

def edgeTypeOfStr : String → Except String EdgeType
  | "dependency" => .ok .dependency | "enables" => .ok .enables
  | "amplifies" => .ok .amplifies | "triggers" => .ok .triggers
  | _ => .error "invalid EdgeType"

/-! `model_dump(mode="json")` per variant, fields in declaration order. -/

def strListJson (xs : List String) : Json := .arr (xs.map Json.str)

def Actor.dump (a : Actor) : Json := .obj
  [("id", .str a.id), ("name", .str a.name), ("actor_type", .str a.actor_type.toStr),
   ("capabilities", strListJson a.capabilities),
   ("known_aliases", strListJson a.known_aliases),
   ("attribution_confidence", .num a.attribution_confidence)]

def Action.dump (a : Action) : Json := .obj
  [("id", .str a.id), ("name", .str a.name), ("description", .str a.description),
   ("domain", .str a.domain.toStr),
   ("attack_ids", strListJson a.attack_ids), ("disarm_ids", strListJson a.disarm_ids),
   ("sct_codes", strListJson a.sct_codes),
   ("actor_id", optStrJson a.actor_id), ("platform_id", optStrJson a.platform_id),
   ("tools", strListJson a.tools), ("duration_hours", optRatJson a.duration_hours),
   ("success_probability", .num a.success_probability),
   ("detection_surface", strListJson a.detection_surface)]

def Capability.dump (a : Capability) : Json := .obj
  [("id", .str a.id), ("name", .str a.name),
   ("capability_type", .str a.capability_type.toStr),
   ("description", .str a.description), ("perishable", .boolean a.perishable),
   ("ttl_hours", optRatJson a.ttl_hours)]

def Infrastructure.dump (a : Infrastructure) : Json := .obj
  [("id", .str a.id), ("name", .str a.name), ("infra_type", .str a.infra_type.toStr),
   ("reach_estimate", optStrJson a.reach_estimate),
   ("detection_difficulty", .num a.detection_difficulty)]

def Narrative.dump (a : Narrative) : Json := .obj
  [("id", .str a.id), ("name", .str a.name),
   ("narrative_type", .str a.narrative_type.toStr),
   ("description", .str a.description),
   ("target_audience", optStrJson a.target_audience),
   ("sct_codes", strListJson a.sct_codes), ("platforms", strListJson a.platforms)]

def Target.dump (a : Target) : Json := .obj
  [("id", .str a.id), ("name", .str a.name), ("target_type", .str a.target_type),
   ("description", .str a.description),
   ("vulnerabilities", strListJson a.vulnerabilities)]

def Effect.dump (a : Effect) : Json := .obj
  [("id", .str a.id), ("name", .str a.name), ("effect_type", .str a.effect_type.toStr),
   ("description", .str a.description), ("severity", .num a.severity),
   ("reversibility", .num a.reversibility)]

def Entity.dump : Entity → Json
  | .actor a => a.dump
  | .action a => a.dump
  | .capability a => a.dump
  | .infrastructure a => a.dump
  | .narrative a => a.dump
  | .target a => a.dump
  | .effect a => a.dump

/-- `e.model_dump(mode="json") | {"_type": type(e).__name__}`: the merge
appends the fresh `_type` key at the end (no model field is named
`_type`). -/
def Entity.dumpTagged (e : Entity) : Json :=
  match e.dump with
  | .obj fs => .obj (fs ++ [("_type", .str e.typeName)])
  | j => j

/-! Pydantic constructors `cls(**edata)` per variant: required fields
error when absent, fields with defaults take the models.py default. -/

def Actor.parse (j : Json) : Except String Actor := do
  let id ← (← reqField j "id").asStr
  let nm ← (← reqField j "name").asStr
  let at_ ← actorTypeOfStr (← (← reqField j "actor_type").asStr)
  let caps ← fieldD j "capabilities" [] Json.asStrList
  let al ← fieldD j "known_aliases" [] Json.asStrList
  let conf ← fieldD j "attribution_confidence" (1 / 2) Json.asRat
  .ok ⟨id, nm, at_, caps, al, conf⟩

def Action.parse (j : Json) : Except String Action := do
  let id ← (← reqField j "id").asStr
  let nm ← (← reqField j "name").asStr
  let desc ← fieldD j "description" "" Json.asStr
  let dom ← fieldD j "domain" .cyber (fun v => do actionDomainOfStr (← v.asStr))
  let atk ← fieldD j "attack_ids" [] Json.asStrList
  let dis ← fieldD j "disarm_ids" [] Json.asStrList
  let sct ← fieldD j "sct_codes" [] Json.asStrList
  let aid ← fieldD j "actor_id" none Json.asOptStr
  let pid ← fieldD j "platform_id" none Json.asOptStr
  let tools ← fieldD j "tools" [] Json.asStrList
  let dur ← fieldD j "duration_hours" none Json.asOptRat
  let sp ← fieldD j "success_probability" (1 / 2) Json.asRat
  let det ← fieldD j "detection_surface" [] Json.asStrList
  .ok ⟨id, nm, desc, dom, atk, dis, sct, aid, pid, tools, dur, sp, det⟩

def Capability.parse (j : Json) : Except String Capability := do
  let id ← (← reqField j "id").asStr
  let nm ← (← reqField j "name").asStr
  let ct ← capabilityTypeOfStr (← (← reqField j "capability_type").asStr)
  let desc ← fieldD j "description" "" Json.asStr
  let per ← fieldD j "perishable" false Json.asBool
  let ttl ← fieldD j "ttl_hours" none Json.asOptRat
  .ok ⟨id, nm, ct, desc, per, ttl⟩

def Infrastructure.parse (j : Json) : Except String Infrastructure := do
  let id ← (← reqField j "id").asStr
  let nm ← (← reqField j "name").asStr
  let it ← infrastructureTypeOfStr (← (← reqField j "infra_type").asStr)
  let re_ ← fieldD j "reach_estimate" none Json.asOptStr
  let dd ← fieldD j "detection_difficulty" (1 / 2) Json.asRat
  .ok ⟨id, nm, it, re_, dd⟩

def Narrative.parse (j : Json) : Except String Narrative := do
  let id ← (← reqField j "id").asStr
  let nm ← (← reqField j "name").asStr
  let nt ← narrativeTypeOfStr (← (← reqField j "narrative_type").asStr)
  let desc ← fieldD j "description" "" Json.asStr
  let ta ← fieldD j "target_audience" none Json.asOptStr
  let sct ← fieldD j "sct_codes" [] Json.asStrList
  let pl ← fieldD j "platforms" [] Json.asStrList
  .ok ⟨id, nm, nt, desc, ta, sct, pl⟩

def Target.parse (j : Json) : Except String Target := do
  let id ← (← reqField j "id").asStr
  let nm ← (← reqField j "name").asStr
  let tt ← fieldD j "target_type" "organization" Json.asStr
  let desc ← fieldD j "description" "" Json.asStr
  let vul ← fieldD j "vulnerabilities" [] Json.asStrList
  .ok ⟨id, nm, tt, desc, vul⟩

def Effect.parse (j : Json) : Except String Effect := do
  let id ← (← reqField j "id").asStr
  let nm ← (← reqField j "name").asStr
  let et ← effectTypeOfStr (← (← reqField j "effect_type").asStr)
  let desc ← fieldD j "description" "" Json.asStr
  let sev ← fieldD j "severity" (1 / 2) Json.asRat
  let rev ← fieldD j "reversibility" (1 / 2) Json.asRat
  .ok ⟨id, nm, et, desc, sev, rev⟩

/-- `etype = edata.pop("_type"); cls = type_map[etype]; cls(**edata)`.
The parsers read fields by name, so the popped `_type` key is simply
ignored by them. -/
def parseEntityTagged (j : Json) : Except String Entity := do
  let tag ← (← reqField j "_type").asStr
  if tag = "Actor" then Entity.actor <$> Actor.parse j
  else if tag = "Action" then Entity.action <$> Action.parse j
  else if tag = "Capability" then Entity.capability <$> Capability.parse j
  else if tag = "Infrastructure" then Entity.infrastructure <$> Infrastructure.parse j
  else if tag = "Narrative" then Entity.narrative <$> Narrative.parse j
  else if tag = "Target" then Entity.target <$> Target.parse j
  else if tag = "Effect" then Entity.effect <$> Effect.parse j
  else .error "unknown entity type"

/-- One element of the `relationships` list produced by the
`HybridChain.relationships` property: `{"source": u, "target": v, **data}`. -/
def dumpRel (e : (String × String) × EdgeData) : Json := .obj
  [("source", .str e.1.1), ("target", .str e.1.2),
   ("edge_type", .str e.2.edge_type.toStr),
   ("resource_id", optStrJson e.2.resource_id),
   ("description", .str e.2.description)]

/-- `to_json(chain)`: the serialized document. -/
def to_json (c : HybridChain) : Json := .obj
  [("id", .str c.chain_id), ("name", .str c.name), ("description", .str c.description),
   ("entities", .obj (c.entities.map (fun p => (p.1, p.2.dumpTagged)))),
   ("relationships", .arr (c.edges.map dumpRel))]

/-- One relationship record of `from_json`: required `source`/`target`,
`edge_type` defaulting to `"dependency"`, optional `resource_id`,
`description` defaulting to `""`. -/
def parseRel (j : Json) : Except String Relationship := do
  let src ← (← reqField j "source").asStr
  let tgt ← (← reqField j "target").asStr
  let et ← match j.getField "edge_type" with
    | none => .ok EdgeType.dependency
    | some v => do edgeTypeOfStr (← v.asStr)
  let rid ← fieldD j "resource_id" none Json.asOptStr
  let desc ← fieldD j "description" "" Json.asStr
  .ok ⟨src, tgt, et, rid, desc⟩

/-- `from_json(json_str)`: rebuild the chain through `add_entity` and
`add_relationship`, propagating every raised error. -/
def from_json (j : Json) : Except String HybridChain := do
  let cid ← (← reqField j "id").asStr
  let nm ← (← reqField j "name").asStr
  let desc ← fieldD j "description" "" Json.asStr
  let entFields ← (← reqField j "entities").asObj
  let c1 ← entFields.foldlM (fun acc p => do
      let e ← parseEntityTagged p.2
      pure (acc.add_entity e)) (HybridChain.init cid nm desc)
  let rels ← (← reqField j "relationships").asArr
  rels.foldlM (fun acc rj => do
      let r ← parseRel rj
      acc.add_relationship r) c1

/-! ## Paths, walks and cycles (specification side) -/

/-- `p` is a directed walk: every pair of consecutive elements is an edge. -/
def isEdgeSeq (E : List (String × String)) : List String → Bool
  | a :: b :: rest => decide ((a, b) ∈ E) && isEdgeSeq E (b :: rest)
  | _ => true

/-- A directed cycle: a walk of length at least one from some node back to
itself. -/
def HasCycle (c : HybridChain) : Prop :=
  ∃ p : List String, 2 ≤ p.length ∧ isEdgeSeq c.edgePairs p = true ∧
    p.head? = p.getLast?

/-- A (simple or not) path from a zero-in-degree node to a zero-out-degree
node, through the chain's edges. -/
def IsSourceSinkPath (c : HybridChain) (p : List String) : Prop :=
  p ≠ [] ∧ isEdgeSeq c.edgePairs p = true ∧
    p.headD "" ∈ c.sources ∧ p.getLastD "" ∈ c.sinks

/-- The claim side of the critical-path weight: the total duration of the
nodes on a path (an Action entity contributes its duration, every other
variant and an absent duration contribute 0). -/
def durOf (c : HybridChain) (v : String) : Rat :=
  match c.get_entity v with
  | some (.action a) =>
    match a.duration_hours with
    | some d => d
    | none => 0
  | _ => 0

def totalDuration (c : HybridChain) (p : List String) : Rat :=
  (p.map (durOf c)).sum

/-- Claim-side reachability along the directed edges. -/
inductive Reaches (E : List (String × String)) : String → String → Prop
  | refl (u : String) : Reaches E u u
  | tail {u v w : String} : Reaches E u v → (v, w) ∈ E → Reaches E u w

/-- The fragility multiplier of the spec: `2.0 − success_probability` for
an Action entity, `1` (no multiplication) otherwise. -/
def fragility (c : HybridChain) (n : String) : Rat :=
  match c.get_entity n with
  | some (.action a) => 2 - a.success_probability
  | _ => 1

/-! ## Concrete chains used by the witnesses and counterexamples below -/

instance exceptDecEq {ε α : Type} [DecidableEq ε] [DecidableEq α] :
    DecidableEq (Except ε α) := fun a b =>
  match a, b with
  | .ok x, .ok y =>
    if h : x = y then .isTrue (by rw [h]) else .isFalse (by intro hc; cases hc; exact h rfl)
  | .error x, .error y =>
    if h : x = y then .isTrue (by rw [h]) else .isFalse (by intro hc; cases hc; exact h rfl)
  | .ok _, .error _ => .isFalse (by intro hc; cases hc)
  | .error _, .ok _ => .isFalse (by intro hc; cases hc)

/-- A three-node acyclic demonstration chain: Actor `a` → Action `b`
(duration 2) → Narrative `n`, as produced by `init`/`add_entity`/
`add_relationship` calls. -/
def wChain : HybridChain :=
  { chain_id := "w", name := "W", description := ""
    entities :=
      [("a", .actor ⟨"a", "Alice", .state, [], [], 1/2⟩),
       ("b", .action ⟨"b", "Strike", "", .cyber, [], [], [], none, none, [], some 2, 1/2, []⟩),
       ("n", .narrative ⟨"n", "Spin", .leak, "", none, [], []⟩)]
    edges :=
      [(("a", "b"), ⟨.triggers, none, ""⟩),
       (("b", "n"), ⟨.enables, none, ""⟩)] }

/-- A two-node cyclic chain `a → b → a`. -/
def cycChain : HybridChain :=
  { chain_id := "c", name := "C", description := ""
    entities :=
      [("a", .target ⟨"a", "A", "organization", "", []⟩),
       ("b", .target ⟨"b", "B", "organization", "", []⟩)]
    edges :=
      [(("a", "b"), ⟨.dependency, none, ""⟩),
       (("b", "a"), ⟨.dependency, none, ""⟩)] }

/-- A chain whose single entity id collides with the reserved virtual
source name used by `get_critical_path`. -/
def clashChain : HybridChain :=
  { chain_id := "x", name := "X", description := ""
    entities := [("__src__", .target ⟨"__src__", "S", "organization", "", []⟩)]
    edges := [] }

/-- A chain with an Action whose `success_probability` exceeds 2 (the
model places no bound on the field), driving its score negative. -/
def negChain : HybridChain :=
  { chain_id := "g", name := "G", description := ""
    entities :=
      [("p", .action ⟨"p", "P", "", .cyber, [], [], [], none, none, [], none, 3, []⟩),
       ("t", .target ⟨"t", "T", "organization", "", []⟩)]
    edges := [(("p", "t"), ⟨.dependency, none, ""⟩)] }

/-! ## Kahn correctness -/

theorem topoAux_perm {E : List (String × String)} :
    ∀ {fuel : Nat} {rem l : List String}, topoAux E fuel rem = some l → l.Perm rem := by
  intro fuel
  induction fuel with
  | zero =>
    intro rem l h
    simp only [topoAux] at h
    split at h
    · cases h
      simp_all [List.isEmpty_iff]
    · cases h
  | succ n ih =>
    intro rem l h
    simp only [topoAux] at h
    split at h
    next hfind =>
      split at h
      · cases h
        simp_all [List.isEmpty_iff]
      · cases h
    next v hfind =>
      rw [Option.map_eq_some'] at h
      obtain ⟨l2, h2, rfl⟩ := h
      have hv : v ∈ rem := List.mem_of_find?_eq_some hfind
      exact ((ih h2).cons v).trans (List.perm_cons_erase hv).symm

theorem topoAux_order {E : List (String × String)} :
    ∀ {fuel : Nat} {rem l : List String}, topoAux E fuel rem = some l → rem.Nodup →
      ∀ u v, (u, v) ∈ E → u ∈ rem → v ∈ rem → l.indexOf u < l.indexOf v := by
  intro fuel
  induction fuel with
  | zero =>
    intro rem l h _ u v _ hu _
    simp only [topoAux] at h
    split at h
    · simp_all [List.isEmpty_iff]
    · cases h
  | succ n ih =>
    intro rem l h hnd u v he hu hv
    simp only [topoAux] at h
    split at h
    next hfind =>
      split at h
      · simp_all [List.isEmpty_iff]
      · cases h
    next v0 hfind =>
      rw [Option.map_eq_some'] at h
      obtain ⟨l2, h2, rfl⟩ := h
      have hnin : hasIncomingFrom E rem v0 = false := by
        have := List.find?_some hfind
        simpa using this
      have hvne : v ≠ v0 := by
        rintro rfl
        have : hasIncomingFrom E rem v = true := by
          simp only [hasIncomingFrom, List.any_eq_true]
          exact ⟨(u, v), he, by simp [hu]⟩
        simp [this] at hnin
      by_cases huv0 : u = v0
      · subst huv0
        rw [List.indexOf_cons_self]
        rw [List.indexOf_cons_ne _ (Ne.symm hvne)]
        exact Nat.succ_pos _
      · have hu2 : u ∈ rem.erase v0 := (List.mem_erase_of_ne huv0).2 hu
        have hv2 : v ∈ rem.erase v0 := (List.mem_erase_of_ne hvne).2 hv
        have := ih h2 (hnd.erase v0) u v he hu2 hv2
        rw [List.indexOf_cons_ne _ (Ne.symm huv0), List.indexOf_cons_ne _ (Ne.symm hvne)]
        exact Nat.succ_lt_succ this

/-- Every edge of a well-formed chain is strictly ordered by any
successful `get_chain` result. -/
theorem get_chain_edge_order {c : HybridChain} {l : List String}
    (hwf : Wf c) (h : c.get_chain = .ok l) :
    ∀ e ∈ c.edgePairs, l.indexOf e.1 < l.indexOf e.2 := by
  intro e he
  obtain ⟨hnd, _, hends⟩ := hwf
  obtain ⟨h1, h2⟩ := hends e he
  unfold HybridChain.get_chain at h
  split at h
  · cases h
  next l2 hsome =>
    cases h
    exact topoAux_order hsome hnd e.1 e.2 he h1 h2

/-- Along a walk of length at least one, the index in a successful
`get_chain()` order strictly increases from head to last. -/
theorem edgeSeq_indexOf_lt {c : HybridChain} {l : List String}
    (hwf : Wf c) (h : c.get_chain = .ok l) :
    ∀ p a, isEdgeSeq c.edgePairs (a :: p) = true → p ≠ [] →
      l.indexOf a < l.indexOf (p.getLastD "") := by
  intro p
  induction p with
  | nil => intro a _ hne; exact absurd rfl hne
  | cons b rest ih =>
    intro a hseq _
    simp only [isEdgeSeq, Bool.and_eq_true, decide_eq_true_eq] at hseq
    obtain ⟨hab, hrest⟩ := hseq
    have hlt := get_chain_edge_order hwf h (a, b) hab
    cases rest with
    | nil => simpa using hlt
    | cons x t =>
      have := ih b (by simpa [isEdgeSeq] using hrest) (by simp)
      simp only [List.getLastD_cons] at this ⊢
      exact Nat.lt_trans hlt this

/-- C1: a successful `get_chain()` is a permutation of all entity ids in
which every relationship source precedes its target. -/
theorem get_chain_topological (c : HybridChain) (hwf : Wf c) (l : List String)
    (h : c.get_chain = .ok l) :
    l.Perm c.nodes ∧ ∀ e ∈ c.edges, l.indexOf e.1.1 < l.indexOf e.1.2 := by
  constructor
  · unfold HybridChain.get_chain at h
    split at h
    · cases h
    next l2 hsome =>
      cases h
      exact topoAux_perm hsome
  · intro e he
    exact get_chain_edge_order hwf h e.1 (List.mem_map_of_mem Prod.fst he)

/-- For a nonempty list, `getLastD ""` is the genuine last element. -/
theorem getLastD_eq_getLast (l : List String) (h : l ≠ []) :
    l.getLastD "" = l.getLast h := by
  rw [List.getLastD_eq_getLast?, List.getLast?_eq_getLast _ h, Option.getD_some]

theorem getLast?_eq_some_getLastD (l : List String) (h : l ≠ []) :
    l.getLast? = some (l.getLastD "") := by
  rw [List.getLast?_eq_getLast _ h, getLastD_eq_getLast l h]

theorem getLastD_cons_of_ne (a : String) (l : List String) (h : l ≠ []) :
    (a :: l).getLastD "" = l.getLastD "" := by
  rw [getLastD_eq_getLast (a :: l) (by simp), getLastD_eq_getLast l h]
  exact List.getLast_cons h

theorem getLastD_mem (l : List String) (h : l ≠ []) : l.getLastD "" ∈ l := by
  rw [getLastD_eq_getLast l h]
  exact List.getLast_mem h

/-- A chain with a directed cycle has no topological sort. -/
theorem hasCycle_topo_none {c : HybridChain} (hwf : Wf c) (hcyc : HasCycle c) :
    c.topological_sort = none := by
  obtain ⟨p, hlen, hseq, hht⟩ := hcyc
  cases htopo : c.topological_sort with
  | none => rfl
  | some l =>
    exfalso
    have hchain : c.get_chain = .ok l := by
      unfold HybridChain.get_chain
      rw [htopo]
    match p, hlen, hseq, hht with
    | a :: b :: rest, _, hseq, hht =>
      have hlt := edgeSeq_indexOf_lt hwf hchain (b :: rest) a hseq (by simp)
      have hlast : (a :: b :: rest).getLast? = some ((b :: rest).getLastD "") := by
        rw [getLast?_eq_some_getLastD _ (by simp), getLastD_cons_of_ne a _ (by simp)]
      rw [List.head?_cons, hlast] at hht
      have : a = (b :: rest).getLastD "" := by injection hht
      rw [← this] at hlt
      exact Nat.lt_irrefl _ hlt

/-- C2: a cyclic chain fails `is_valid_dag` and both ordering queries raise
the CycleError-kind `ValueError`, returning no partial result. -/
theorem cycle_all_queries_fail (c : HybridChain) (hwf : Wf c) (hcyc : HasCycle c) :
    c.is_valid_dag = false ∧
      c.get_chain = .error "Chain contains cycles - not a valid DAG" ∧
      c.get_critical_path = .error "Chain contains cycles - not a valid DAG" := by
  have hnone := hasCycle_topo_none hwf hcyc
  refine ⟨?_, ?_, ?_⟩
  · unfold HybridChain.is_valid_dag
    rw [hnone]
    rfl
  · unfold HybridChain.get_chain
    rw [hnone]
  · unfold HybridChain.get_critical_path
    rw [hnone]

/-- In a nodup list, the last element sits at index `length - 1`. -/
theorem indexOf_getLastD {l : List String} (hnd : l.Nodup) (hne : l ≠ []) :
    l.indexOf (l.getLastD "") = l.length - 1 := by
  induction l with
  | nil => exact absurd rfl hne
  | cons a t ih =>
    cases t with
    | nil => simp [List.getLastD, List.indexOf_cons_self]
    | cons b u =>
      have hne2 : (b :: u) ≠ [] := by simp
      have hmem : (b :: u).getLastD "" ∈ b :: u := getLastD_mem _ hne2
      have hanot : a ∉ (b :: u) := (List.nodup_cons.1 hnd).1
      have hne3 : a ≠ (b :: u).getLastD "" := fun hEq => hanot (hEq ▸ hmem)
      rw [getLastD_cons_of_ne a _ hne2, List.indexOf_cons_ne _ hne3,
        ih (List.nodup_cons.1 hnd).2 hne2]
      simp

/-- A nonempty acyclic chain always has a zero-in-degree node and a
zero-out-degree node: the first and last entries of any topological
order. -/
theorem acyclic_has_source_and_sink (c : HybridChain) (hwf : Wf c)
    (hdag : c.is_valid_dag = true) (hne : c.nodes ≠ []) :
    c.sources ≠ [] ∧ c.sinks ≠ [] := by
  have hnd := hwf.1
  cases htopo : c.topological_sort with
  | none => simp [HybridChain.is_valid_dag, htopo] at hdag
  | some l =>
    have hchain : c.get_chain = .ok l := by
      unfold HybridChain.get_chain
      rw [htopo]
    have hperm : l.Perm c.nodes := topoAux_perm htopo
    have hlnd : l.Nodup := hperm.nodup_iff.2 hnd
    have hlne : l ≠ [] := by
      intro hEq
      rw [hEq] at hperm
      exact hne (hperm.nil_eq).symm
    constructor
    · match l, hlne, hperm, hlnd, hchain with
      | a :: t, _, hperm, hlnd, hchain =>
        have hmem : a ∈ c.nodes := hperm.mem_iff.1 (by simp)
        have hdeg : c.inDegree a = 0 := by
          unfold HybridChain.inDegree
          rw [List.length_eq_zero, List.filter_eq_nil_iff]
          intro e he hEq
          simp only [decide_eq_true_eq] at hEq
          have := get_chain_edge_order hwf hchain e he
          rw [hEq, List.indexOf_cons_self] at this
          exact Nat.not_lt_zero _ this
        intro hsrc
        have : a ∈ c.sources := by
          unfold HybridChain.sources
          rw [List.mem_filter]
          exact ⟨hmem, by simp [hdeg]⟩
        rw [hsrc] at this
        cases this
    · have hlast_mem_l : l.getLastD "" ∈ l := getLastD_mem _ hlne
      have hmem : l.getLastD "" ∈ c.nodes := hperm.mem_iff.1 hlast_mem_l
      have hdeg : c.outDegree (l.getLastD "") = 0 := by
        unfold HybridChain.outDegree
        rw [List.length_eq_zero, List.filter_eq_nil_iff]
        intro e he hEq
        simp only [decide_eq_true_eq] at hEq
        have hlt := get_chain_edge_order hwf hchain e he
        rw [hEq, indexOf_getLastD hlnd hlne] at hlt
        have h2 : e.2 ∈ l := hperm.mem_iff.2 (hwf.2.2 e he).2
        have := List.indexOf_lt_length.2 h2
        omega
      intro hsnk
      have : l.getLastD "" ∈ c.sinks := by
        unfold HybridChain.sinks
        rw [List.mem_filter]
        refine ⟨hmem, ?_⟩
        rw [hdeg]
        rfl
      rw [hsnk] at this
      cases this

/-- C9 (amended): a chain with no zero-in-degree node or no zero-out-degree
node is necessarily cyclic, and `get_critical_path()` raises its
CycleError before the fallback branch can run — the fallback is dead
code. -/
theorem no_source_or_sink_raises (c : HybridChain) (hwf : Wf c) (hne : c.nodes ≠ [])
    (h : c.sources = [] ∨ c.sinks = []) :
    c.get_critical_path = .error "Chain contains cycles - not a valid DAG" := by
  cases htopo : c.topological_sort with
  | some l =>
    exfalso
    have hdag : c.is_valid_dag = true := by
      unfold HybridChain.is_valid_dag
      rw [htopo]
      rfl
    obtain ⟨h1, h2⟩ := acyclic_has_source_and_sink c hwf hdag hne
    cases h with
    | inl hs => exact h1 hs
    | inr hs => exact h2 hs
  | none =>
    unfold HybridChain.get_critical_path
    rw [htopo]

/-! ## Dictionary lemmas and well-formedness preservation -/

theorem mapReplace_keys [DecidableEq κ] (l : List (κ × α)) (k : κ) (v : α) :
    (l.map (fun p => if p.1 = k then (k, v) else p)).map Prod.fst = l.map Prod.fst := by
  induction l with
  | nil => rfl
  | cons p t ih =>
    simp only [List.map_cons, ih]
    by_cases hp : p.1 = k
    · simp [hp]
    · simp [hp]

theorem find_mapReplace_self [DecidableEq κ] (l : List (κ × α)) (k : κ) (v : α)
    (h : k ∈ l.map Prod.fst) :
    dictGet (l.map (fun p => if p.1 = k then (k, v) else p)) k = some v := by
  induction l with
  | nil => simp at h
  | cons p t ih =>
    by_cases hp : p.1 = k
    · simp [dictGet, List.find?, hp]
    · have ht : k ∈ t.map Prod.fst := by
        simp only [List.map_cons, List.mem_cons] at h
        rcases h with h | h
        · exact absurd h.symm hp
        · exact h
      simpa [dictGet, List.find?, hp] using ih ht

theorem find_mapReplace_ne [DecidableEq κ] (l : List (κ × α)) (k k2 : κ) (v : α)
    (hne : k2 ≠ k) :
    dictGet (l.map (fun p => if p.1 = k then (k, v) else p)) k2 = dictGet l k2 := by
  induction l with
  | nil => rfl
  | cons p t ih =>
    by_cases hp : p.1 = k
    · have h1 : ¬ (k = k2) := fun hEq => hne hEq.symm
      have h2 : ¬ (p.1 = k2) := by rw [hp]; exact h1
      simpa [dictGet, List.find?, hp, h1, h2] using ih
    · by_cases hpk2 : p.1 = k2
      · simp [dictGet, List.find?, hpk2, hne]
      · simpa [dictGet, List.find?, hp, hpk2] using ih

theorem dictInsert_keys_of_mem [DecidableEq κ] {l : List (κ × α)} {k : κ} (v : α)
    (h : k ∈ l.map Prod.fst) : (dictInsert l k v).map Prod.fst = l.map Prod.fst := by
  unfold dictInsert
  rw [if_pos h]
  exact mapReplace_keys l k v

theorem dictInsert_keys_of_not_mem [DecidableEq κ] {l : List (κ × α)} {k : κ} (v : α)
    (h : k ∉ l.map Prod.fst) :
    (dictInsert l k v).map Prod.fst = l.map Prod.fst ++ [k] := by
  unfold dictInsert
  rw [if_neg h]
  simp

theorem find?_nil_of_keys_not_mem [DecidableEq κ] {l : List (κ × α)} {k : κ}
    (h : k ∉ l.map Prod.fst) : l.find? (fun p => p.1 = k) = none := by
  rw [List.find?_eq_none]
  intro p hp hpk
  simp only [decide_eq_true_eq] at hpk
  exact h (List.mem_map.2 ⟨p, hp, hpk⟩)

theorem dictGet_dictInsert_self [DecidableEq κ] (l : List (κ × α)) (k : κ) (v : α) :
    dictGet (dictInsert l k v) k = some v := by
  by_cases h : k ∈ l.map Prod.fst
  · unfold dictInsert
    rw [if_pos h]
    exact find_mapReplace_self l k v h
  · unfold dictInsert
    rw [if_neg h]
    unfold dictGet
    rw [List.find?_append, find?_nil_of_keys_not_mem h]
    simp [List.find?]

theorem dictGet_dictInsert_ne [DecidableEq κ] (l : List (κ × α)) (k k2 : κ) (v : α)
    (hne : k2 ≠ k) : dictGet (dictInsert l k v) k2 = dictGet l k2 := by
  by_cases h : k ∈ l.map Prod.fst
  · unfold dictInsert
    rw [if_pos h]
    exact find_mapReplace_ne l k k2 v hne
  · unfold dictInsert
    rw [if_neg h]
    unfold dictGet
    rw [List.find?_append]
    have hone : List.find? (fun p => p.1 = k2) [(k, v)] = none := by
      simp [List.find?, Ne.symm hne]
    rw [hone]
    cases List.find? (fun p => p.1 = k2) l <;> rfl

theorem Wf_init (i n d : String) : Wf (HybridChain.init i n d) := by
  refine ⟨by simp [HybridChain.init, HybridChain.nodes], by simp [HybridChain.init], ?_⟩
  intro e he
  simp [HybridChain.init, HybridChain.edgePairs] at he

theorem Wf_add_entity {c : HybridChain} (hwf : Wf c) (e : Entity) :
    Wf (c.add_entity e) := by
  obtain ⟨h1, h2, h3⟩ := hwf
  have hedges : (c.add_entity e).edges = c.edges := rfl
  have hpairs : (c.add_entity e).edgePairs = c.edgePairs := rfl
  by_cases hm : e.id ∈ c.nodes
  · have hEq : (c.add_entity e).nodes = c.nodes := dictInsert_keys_of_mem e hm
    refine ⟨by rw [hEq]; exact h1, by rw [hedges]; exact h2, ?_⟩
    intro x hx
    rw [hpairs] at hx
    rw [hEq]
    exact h3 x hx
  · have hEq : (c.add_entity e).nodes = c.nodes ++ [e.id] := dictInsert_keys_of_not_mem e hm
    refine ⟨?_, by rw [hedges]; exact h2, ?_⟩
    · rw [hEq]
      simp only [List.nodup_append, List.nodup_singleton, true_and, and_true]
      refine ⟨h1, ?_⟩
      intro a ha hb
      simp only [List.mem_singleton] at hb
      subst hb
      exact hm ha
    · intro x hx
      rw [hpairs] at hx
      have := h3 x hx
      rw [hEq]
      exact ⟨List.mem_append_left _ this.1, List.mem_append_left _ this.2⟩

theorem Wf_insert_edge {c : HybridChain} (hwf : Wf c) {u v : String}
    (hu : u ∈ c.nodes) (hv : v ∈ c.nodes) (d : EdgeData) :
    Wf { c with edges := dictInsert c.edges (u, v) d } := by
  obtain ⟨h1, h2, h3⟩ := hwf
  refine ⟨h1, ?_, ?_⟩
  · show ((dictInsert c.edges (u, v) d).map Prod.fst).Nodup
    by_cases hm : (u, v) ∈ c.edges.map Prod.fst
    · rw [dictInsert_keys_of_mem d hm]
      exact h2
    · rw [dictInsert_keys_of_not_mem d hm]
      simp only [List.nodup_append, List.nodup_singleton, true_and, and_true]
      refine ⟨h2, ?_⟩
      intro a ha hb
      simp only [List.mem_singleton] at hb
      subst hb
      exact hm ha
  · intro x hx
    have hx2 : x ∈ (dictInsert c.edges (u, v) d).map Prod.fst := hx
    by_cases hm : (u, v) ∈ c.edges.map Prod.fst
    · rw [dictInsert_keys_of_mem d hm] at hx2
      exact h3 x hx2
    · rw [dictInsert_keys_of_not_mem d hm] at hx2
      rcases List.mem_append.1 hx2 with h4 | h4
      · exact h3 x h4
      · simp only [List.mem_singleton] at h4
        subst h4
        exact ⟨hu, hv⟩

theorem Wf_add_relationship {c c2 : HybridChain} (hwf : Wf c) (r : Relationship)
    (h : c.add_relationship r = .ok c2) : Wf c2 := by
  unfold HybridChain.add_relationship at h
  by_cases hs : r.source_id ∉ c.nodes
  · rw [if_pos hs] at h
    cases h
  · rw [if_neg hs] at h
    by_cases ht : r.target_id ∉ c.nodes
    · rw [if_pos ht] at h
      cases h
    · rw [if_neg ht] at h
      rw [not_not] at hs ht
      cases h
      exact Wf_insert_edge hwf hs ht _

/-- C4: `add_relationship` fails exactly when an endpoint id is absent, and
a successful call changes nothing but the edge dict, into which it inserts
the edge with its edge-type, optional resource id and description.  (The
endpoint checks precede the mutation in the source, so a failing call
leaves the chain — entities and relationships alike — untouched; in this
pure embedding the failure branch returns no new state at all.) -/
theorem add_relationship_iff_and_frame (c : HybridChain) (r : Relationship) :
    ((c.add_relationship r).isOk = false ↔
      (r.source_id ∉ c.nodes ∨ r.target_id ∉ c.nodes)) ∧
    ∀ c2, c.add_relationship r = .ok c2 →
      c2.entities = c.entities ∧
      c2.edges = dictInsert c.edges (r.source_id, r.target_id)
        ⟨r.edge_type, r.resource_id, r.description⟩ ∧
      c2.chain_id = c.chain_id ∧ c2.name = c.name ∧ c2.description = c.description := by
  unfold HybridChain.add_relationship
  by_cases hs : r.source_id ∉ c.nodes
  · rw [if_pos hs]
    exact ⟨by simp [Except.isOk, Except.toBool, hs], by intro c2 h; cases h⟩
  · rw [if_neg hs]
    by_cases ht : r.target_id ∉ c.nodes
    · rw [if_pos ht]
      exact ⟨by simp [Except.isOk, Except.toBool, ht], by intro c2 h; cases h⟩
    · rw [if_neg ht]
      refine ⟨by simp [Except.isOk, Except.toBool, hs, ht], ?_⟩
      intro c2 h
      cases h
      exact ⟨rfl, rfl, rfl, rfl, rfl⟩

/-- C10: `add_entity` under an id already in use silently replaces the
stored entity for that id and leaves every other entity, every
relationship (including those whose source or target is the overwritten
id), the node list and the chain metadata unchanged. -/
theorem add_entity_overwrite (c : HybridChain) (e : Entity)
    (hmem : e.id ∈ c.nodes) :
    (c.add_entity e).get_entity e.id = some e ∧
    (∀ k, k ≠ e.id → (c.add_entity e).get_entity k = c.get_entity k) ∧
    (c.add_entity e).nodes = c.nodes ∧
    (c.add_entity e).edges = c.edges ∧
    (c.add_entity e).chain_id = c.chain_id ∧
    (c.add_entity e).name = c.name ∧
    (c.add_entity e).description = c.description := by
  refine ⟨dictGet_dictInsert_self c.entities e.id e, ?_, ?_, rfl, rfl, rfl, rfl⟩
  · intro k hk
    exact dictGet_dictInsert_ne c.entities e.id k e hk
  · exact dictInsert_keys_of_mem e hmem

/-! ## Reachability: correctness of the saturation in `reachSet` -/

theorem mem_reachStep {E : List (String × String)} {vs : List String} {x : String} :
    x ∈ reachStep E vs ↔ x ∈ vs ∨ ∃ e ∈ E, e.1 ∈ vs ∧ e.2 = x := by
  unfold reachStep
  rw [List.mem_append]
  constructor
  · rintro (h | h)
    · exact .inl h
    · rcases List.mem_map.1 h with ⟨e, he, rfl⟩
      have := List.mem_filter.1 he
      simp only [Bool.and_eq_true, List.contains, List.elem_eq_mem, decide_eq_true_eq,
        Bool.not_eq_true', decide_eq_false_iff_not] at this
      exact .inr ⟨e, this.1, this.2.1, rfl⟩
  · rintro (h | ⟨e, he, h1, rfl⟩)
    · exact .inl h
    · by_cases h2 : e.2 ∈ vs
      · exact .inl h2
      · refine .inr (List.mem_map.2 ⟨e, List.mem_filter.2 ⟨he, ?_⟩, rfl⟩)
        simp only [Bool.and_eq_true, List.contains, List.elem_eq_mem, decide_eq_true_eq,
          Bool.not_eq_true', decide_eq_false_iff_not]
        exact ⟨h1, h2⟩

theorem subset_reachStep (E : List (String × String)) (vs : List String) :
    vs ⊆ reachStep E vs := fun _ h => mem_reachStep.2 (.inl h)

theorem reachIter_mono_succ (E : List (String × String)) (n : Nat) (vs : List String) :
    reachIter E n vs ⊆ reachIter E (n + 1) vs :=
  subset_reachStep E (reachIter E n vs)

theorem reachIter_mono (E : List (String × String)) {m n : Nat} (h : m ≤ n)
    (vs : List String) : reachIter E m vs ⊆ reachIter E n vs := by
  induction n with
  | zero => cases Nat.le_zero.1 h; exact fun _ hx => hx
  | succ k ih =>
    rcases Nat.lt_or_ge m (k + 1) with hlt | hge
    · exact fun x hx => reachIter_mono_succ E k vs (ih (Nat.lt_succ_iff.1 hlt) hx)
    · cases Nat.le_antisymm h hge
      exact fun _ hx => hx

theorem reachStep_congr {E : List (String × String)} {vs ws : List String}
    (h : ∀ x, x ∈ vs ↔ x ∈ ws) :
    ∀ x, x ∈ reachStep E vs ↔ x ∈ reachStep E ws := by
  intro x
  rw [mem_reachStep, mem_reachStep]
  constructor
  · rintro (hx | ⟨e, he, h1, h2⟩)
    · exact .inl ((h x).1 hx)
    · exact .inr ⟨e, he, (h e.1).1 h1, h2⟩
  · rintro (hx | ⟨e, he, h1, h2⟩)
    · exact .inl ((h x).2 hx)
    · exact .inr ⟨e, he, (h e.1).2 h1, h2⟩

theorem reachIter_subset_universe (E : List (String × String)) (u : String) :
    ∀ n, reachIter E n [u] ⊆ u :: E.map Prod.snd := by
  intro n
  induction n with
  | zero =>
    intro x hx
    simp only [reachIter, List.mem_singleton] at hx
    subst hx
    exact List.mem_cons_self _ _
  | succ k ih =>
    intro x hx
    rcases mem_reachStep.1 hx with hx | ⟨e, he, _, rfl⟩
    · exact ih hx
    · exact List.mem_cons_of_mem _ (List.mem_map.2 ⟨e, he, rfl⟩)

theorem reachIter_stable {E : List (String × String)} {u : String} {k : Nat}
    (hstab : ∀ x, x ∈ reachIter E (k + 1) [u] ↔ x ∈ reachIter E k [u]) :
    ∀ m, k ≤ m → ∀ x, x ∈ reachIter E m [u] ↔ x ∈ reachIter E k [u] := by
  intro m
  induction m with
  | zero => intro h x; cases Nat.le_zero.1 h; exact Iff.rfl
  | succ j ih =>
    intro h x
    rcases Nat.lt_or_ge k (j + 1) with hlt | hge
    · have hj : k ≤ j := Nat.lt_succ_iff.1 hlt
      have h1 : x ∈ reachIter E (j + 1) [u] ↔ x ∈ reachIter E (k + 1) [u] :=
        reachStep_congr (ih hj) x
      exact h1.trans (hstab x)
    · cases Nat.le_antisymm h hge
      exact Iff.rfl

/-- A stabilization point occurs within `E.length + 1` iterations: each
earlier productive step adds a fresh element of the finite universe. -/
theorem exists_stable_index (E : List (String × String)) (u : String) :
    ∃ k < E.length + 1, ∀ x, x ∈ reachIter E (k + 1) [u] ↔ x ∈ reachIter E k [u] := by
  by_contra hcon
  push_neg at hcon
  have hgrow : ∀ k < E.length + 1,
      (reachIter E k [u]).toFinset ⊂ (reachIter E (k + 1) [u]).toFinset := by
    intro k hk
    obtain ⟨x, hx⟩ := hcon k hk
    have hsub : (reachIter E k [u]).toFinset ⊆ (reachIter E (k + 1) [u]).toFinset := by
      intro a ha
      rw [List.mem_toFinset] at ha ⊢
      exact reachIter_mono_succ E k [u] ha
    refine Finset.ssubset_iff_of_subset hsub |>.2 ?_
    have hx2 : x ∈ reachIter E (k + 1) [u] ∧ x ∉ reachIter E k [u] := by
      rcases hx with ⟨h1, h2⟩ | ⟨h1, h2⟩
      · exact ⟨h1, h2⟩
      · exact absurd (reachIter_mono_succ E k [u] h2) h1
    exact ⟨x, List.mem_toFinset.2 hx2.1, fun h => hx2.2 (List.mem_toFinset.1 h)⟩
  have hcard : ∀ k ≤ E.length + 1, k + 1 ≤ (reachIter E k [u]).toFinset.card := by
    intro k
    induction k with
    | zero =>
      intro _
      have : u ∈ (reachIter E 0 [u]).toFinset := by
        simp [reachIter]
      exact Finset.card_pos.2 ⟨u, this⟩
    | succ j ih =>
      intro hj
      have h1 := ih (Nat.le_of_succ_le hj)
      have h2 := Finset.card_lt_card (hgrow j (Nat.lt_of_succ_le hj))
      omega
  have hbound : (reachIter E (E.length + 1) [u]).toFinset.card ≤ E.length + 1 := by
    calc (reachIter E (E.length + 1) [u]).toFinset.card
        ≤ (u :: E.map Prod.snd).toFinset.card := by
          apply Finset.card_le_card
          intro a ha
          rw [List.mem_toFinset] at ha ⊢
          exact reachIter_subset_universe E u _ ha
      _ ≤ (u :: E.map Prod.snd).length := (u :: E.map Prod.snd).toFinset_card_le
      _ = E.length + 1 := by simp
  have := hcard (E.length + 1) (Nat.le_refl _)
  omega

/-- `reachSet` is closed under the edge relation. -/
theorem reachSet_closed {E : List (String × String)} {u a b : String}
    (ha : a ∈ reachSet E u) (hab : (a, b) ∈ E) : b ∈ reachSet E u := by
  obtain ⟨k, hk, hstab⟩ := exists_stable_index E u
  have hiff := reachIter_stable hstab (E.length + 1) (Nat.le_of_lt hk)
  have ha2 : a ∈ reachIter E k [u] := (hiff a).1 ha
  have hb : b ∈ reachIter E (k + 1) [u] :=
    mem_reachStep.2 (.inr ⟨(a, b), hab, ha2, rfl⟩)
  exact (hiff b).2 ((hstab b).1 hb)

theorem reaches_of_mem_reachSet {E : List (String × String)} {u x : String}
    (h : x ∈ reachSet E u) : Reaches E u x := by
  have : ∀ n y, y ∈ reachIter E n [u] → Reaches E u y := by
    intro n
    induction n with
    | zero =>
      intro y hy
      simp only [reachIter, List.mem_singleton] at hy
      cases hy
      exact .refl u
    | succ k ih =>
      intro y hy
      rcases mem_reachStep.1 hy with hy | ⟨e, he, h1, rfl⟩
      · exact ih y hy
      · exact .tail (ih e.1 h1) (by cases e; exact he)
  exact this _ x h

theorem mem_reachSet_of_reaches {E : List (String × String)} {u x : String}
    (h : Reaches E u x) : x ∈ reachSet E u := by
  induction h with
  | refl =>
    exact reachIter_mono E (Nat.zero_le _) [u] (by simp [reachIter])
  | tail _ hedge ih => exact reachSet_closed ih hedge

theorem mem_reachSet_iff {E : List (String × String)} {u x : String} :
    x ∈ reachSet E u ↔ Reaches E u x :=
  ⟨reaches_of_mem_reachSet, mem_reachSet_of_reaches⟩

/-- The descendant count computed by the code is the cardinality of the
set of nodes (other than the argument) reachable from it. -/
theorem descendant_spec (c : HybridChain) (hwf : Wf c) (n : String) :
    ∃ S : Finset String,
      (∀ m, m ∈ S ↔ m ∈ c.nodes ∧ m ≠ n ∧ Reaches c.edgePairs n m) ∧
      c.descendantCount n = S.card := by
  refine ⟨(c.nodes.filter (fun m => m ≠ n && (reachSet c.edgePairs n).contains m)).toFinset,
    ?_, ?_⟩
  · intro m
    rw [List.mem_toFinset, List.mem_filter]
    simp only [Bool.and_eq_true, decide_eq_true_eq, List.contains, List.elem_eq_mem,
      mem_reachSet_iff]
  · unfold HybridChain.descendantCount
    rw [List.toFinset_card_of_nodup]
    exact (hwf.1).filter _

/-- C6: for a present node, `intervention_score` returns exactly the size
of its descendant set — the set of graph nodes other than itself reachable
from it along directed edges — and a node reaching nothing scores 0. -/
theorem intervention_score_spec (c : HybridChain) (n : String) (hwf : Wf c)
    (hmem : n ∈ c.nodes) :
    ∃ (k : Nat) (S : Finset String),
      c.intervention_score n = .ok k ∧
      (∀ m, m ∈ S ↔ m ∈ c.nodes ∧ m ≠ n ∧ Reaches c.edgePairs n m) ∧
      k = S.card ∧
      ((∀ m, ¬ (m ≠ n ∧ Reaches c.edgePairs n m)) → k = 0) := by
  obtain ⟨S, hS, hcard⟩ := descendant_spec c hwf n
  refine ⟨c.descendantCount n, S, ?_, hS, hcard, ?_⟩
  · unfold HybridChain.intervention_score
    rw [if_neg (by simpa using hmem)]
  · intro hnone
    rw [hcard, Finset.card_eq_zero, Finset.eq_empty_iff_forall_not_mem]
    intro m hm
    have := (hS m).1 hm
    exact hnone m ⟨this.2.1, this.2.2⟩

/-! ## Intervention ranking (claim C5) -/

theorem rat_floor_eq_intFloor (q : Rat) : Rat.floor q = ⌊q⌋ := by
  rw [Rat.floor_def, Rat.floor_def']

theorem roundHalfEven_nonneg {q : Rat} (h : 0 ≤ q) : 0 ≤ roundHalfEven q := by
  unfold roundHalfEven
  have hf : (0 : Int) ≤ Rat.floor q := by
    rw [rat_floor_eq_intFloor]
    exact Int.floor_nonneg.2 h
  split
  · exact hf
  · split
    · omega
    · split
      · exact hf
      · omega

theorem roundTo2_nonneg {q : Rat} (h : 0 ≤ q) : 0 ≤ roundTo2 q := by
  unfold roundTo2
  have h1 : (0 : Int) ≤ roundHalfEven (q * 100) :=
    roundHalfEven_nonneg (by positivity)
  have h2 : (0 : Rat) ≤ (roundHalfEven (q * 100) : Rat) := by exact_mod_cast h1
  positivity

theorem rankEntryFor_node_id (c : HybridChain) (n : String) :
    (rankEntryFor c n).node_id = n := rfl

theorem rankEntryFor_score (c : HybridChain) (n : String) :
    (rankEntryFor c n).score =
      roundTo2 ((c.descendantCount n : Rat) * (1 + (c.inDegree n : Rat)) * fragility c n) := by
  unfold rankEntryFor fragility
  cases hent : c.get_entity n with
  | none => simp [hent, mul_one]
  | some e =>
    cases e <;> simp [hent, mul_one]

theorem rankEntryFor_score_nonneg (c : HybridChain) (n : String)
    (hp : ∀ a : Action, c.get_entity n = some (.action a) → a.success_probability ≤ 2) :
    0 ≤ (rankEntryFor c n).score := by
  rw [rankEntryFor_score]
  apply roundTo2_nonneg
  have hbase : (0 : Rat) ≤ (c.descendantCount n : Rat) * (1 + (c.inDegree n : Rat)) := by
    positivity
  have hfrag : 0 ≤ fragility c n := by
    unfold fragility
    cases hent : c.get_entity n with
    | none => norm_num
    | some e =>
      cases e with
      | action a =>
        have := hp a hent
        simp only []
        linarith
      | actor a => norm_num
      | capability a => norm_num
      | infrastructure a => norm_num
      | narrative a => norm_num
      | target a => norm_num
      | effect a => norm_num
  exact mul_nonneg hbase hfrag

theorem insertDesc_perm (x : RankEntry) (l : List RankEntry) :
    (insertDesc x l).Perm (x :: l) := by
  induction l with
  | nil => exact List.Perm.refl _
  | cons y t ih =>
    unfold insertDesc
    split
    · exact List.Perm.refl _
    · exact (ih.cons y).trans (List.Perm.swap x y t)

theorem sortByScoreDesc_perm (l : List RankEntry) : (sortByScoreDesc l).Perm l := by
  induction l with
  | nil => exact List.Perm.refl _
  | cons x t ih => exact (insertDesc_perm x _).trans (ih.cons x)

theorem mem_insertDesc {a x : RankEntry} {l : List RankEntry} :
    a ∈ insertDesc x l ↔ a ∈ x :: l := (insertDesc_perm x l).mem_iff

theorem mem_sortByScoreDesc {a : RankEntry} {l : List RankEntry} :
    a ∈ sortByScoreDesc l ↔ a ∈ l := (sortByScoreDesc_perm l).mem_iff

theorem insertDesc_sorted {x : RankEntry} {l : List RankEntry}
    (h : List.Pairwise (fun a b : RankEntry => b.score ≤ a.score) l) :
    List.Pairwise (fun a b : RankEntry => b.score ≤ a.score) (insertDesc x l) := by
  induction l with
  | nil => simp [insertDesc]
  | cons y t ih =>
    rw [List.pairwise_cons] at h
    obtain ⟨hy, ht⟩ := h
    unfold insertDesc
    split
    next hle =>
      rw [List.pairwise_cons]
      refine ⟨?_, List.pairwise_cons.2 ⟨hy, ht⟩⟩
      intro z hz
      rcases List.mem_cons.1 hz with rfl | hz2
      · exact hle
      · exact le_trans (hy z hz2) hle
    next hgt =>
      rw [List.pairwise_cons]
      refine ⟨?_, ih ht⟩
      intro z hz
      rcases List.mem_cons.1 (mem_insertDesc.1 hz) with rfl | hz2
      · exact le_of_not_le hgt
      · exact hy z hz2

theorem sortByScoreDesc_sorted (l : List RankEntry) :
    List.Pairwise (fun a b : RankEntry => b.score ≤ a.score) (sortByScoreDesc l) := by
  induction l with
  | nil => simp [sortByScoreDesc]
  | cons x t ih => exact insertDesc_sorted ih

/-- C5 (amended): `intervention_ranking` reports, for every node, the score
`round(descendant_count × (1 + in_degree) × fragility, 2)` where the
fragility factor is `2.0 − success_probability` for Action entities and 1
otherwise, covers all nodes, and is sorted by score descending; every
score is nonnegative provided each Action entity's `success_probability`
is at most 2 (the model imposes no bound on that field, so larger values
produce negative scores). -/
theorem intervention_ranking_spec (c : HybridChain) (hwf : Wf c) :
    List.Pairwise (fun a b : RankEntry => b.score ≤ a.score) (intervention_ranking c) ∧
    ((intervention_ranking c).map (fun e => e.node_id)).Perm c.nodes ∧
    (∀ e ∈ intervention_ranking c, ∃ S : Finset String,
      (∀ m, m ∈ S ↔ m ∈ c.nodes ∧ m ≠ e.node_id ∧ Reaches c.edgePairs e.node_id m) ∧
      e.score = roundTo2 ((S.card : Rat) * (1 + (c.inDegree e.node_id : Rat)) *
        fragility c e.node_id)) ∧
    ((∀ i (a : Action), c.get_entity i = some (.action a) → a.success_probability ≤ 2) →
      ∀ e ∈ intervention_ranking c, 0 ≤ e.score) := by
  refine ⟨?_, ?_, ?_, ?_⟩
  · exact sortByScoreDesc_sorted _
  · have hperm : (intervention_ranking c).Perm (c.nodes.map (rankEntryFor c)) :=
      sortByScoreDesc_perm _
    have := hperm.map (fun e : RankEntry => e.node_id)
    rw [List.map_map] at this
    have h2 : c.nodes.map ((fun e : RankEntry => e.node_id) ∘ rankEntryFor c) = c.nodes :=
      List.map_id c.nodes
    rw [h2] at this
    exact this
  · intro e he
    unfold intervention_ranking at he
    rw [mem_sortByScoreDesc, List.mem_map] at he
    obtain ⟨n, hn, rfl⟩ := he
    obtain ⟨S, hS, hcard⟩ := descendant_spec c hwf n
    refine ⟨S, by simpa [rankEntryFor_node_id] using hS, ?_⟩
    rw [rankEntryFor_score, ← hcard]
    rfl
  · intro hp e he
    unfold intervention_ranking at he
    rw [mem_sortByScoreDesc, List.mem_map] at he
    obtain ⟨n, hn, rfl⟩ := he
    exact rankEntryFor_score_nonneg c n (fun a ha => hp n a ha)

/-! ## Simple-path enumeration: soundness and completeness -/

theorem mem_succsOf {E : List (String × String)} {u w : String} :
    w ∈ succsOf E u ↔ (u, w) ∈ E := by
  unfold succsOf
  rw [List.mem_map]
  constructor
  · rintro ⟨e, he, rfl⟩
    have := List.mem_filter.1 he
    simp only [decide_eq_true_eq] at this
    obtain ⟨h1, h2⟩ := this
    cases e
    simp only at h2
    subst h2
    exact h1
  · intro h
    exact ⟨(u, w), List.mem_filter.2 ⟨h, by simp⟩, rfl⟩

theorem isEdgeSeq_cons_cons {E : List (String × String)} {a b : String} {r : List String} :
    isEdgeSeq E (a :: b :: r) = true ↔ (a, b) ∈ E ∧ isEdgeSeq E (b :: r) = true := by
  simp [isEdgeSeq]

theorem head?_eq_some_headD (p : List String) (h : p ≠ []) :
    p.head? = some (p.headD "") := by
  cases p with
  | nil => exact absurd rfl h
  | cons a t => rfl

theorem getLast?_cons_of_ne (a : String) (l : List String) (h : l ≠ []) :
    (a :: l).getLast? = l.getLast? := by
  rw [List.getLast?_cons, List.getLast?_eq_getLast l h]
  rfl

theorem simplePathsAux_sound {E : List (String × String)} :
    ∀ {fuel : Nat} {u v : String} {visited p : List String},
      p ∈ simplePathsAux E fuel u v visited → u ∉ visited →
      p.head? = some u ∧ p.getLast? = some v ∧ isEdgeSeq E p = true ∧
        (∀ n ∈ p, n ∉ visited) ∧ p.Nodup := by
  intro fuel
  induction fuel with
  | zero => intro u v visited p hp; simp [simplePathsAux] at hp
  | succ f ih =>
    intro u v visited p hp hu
    simp only [simplePathsAux] at hp
    by_cases huv : u = v
    · rw [if_pos huv] at hp
      simp only [List.mem_singleton] at hp
      subst hp
      subst huv
      exact ⟨rfl, rfl, rfl, by simpa using hu, by simp⟩
    · rw [if_neg huv] at hp
      rw [List.mem_flatMap] at hp
      obtain ⟨w, hw, hp2⟩ := hp
      rw [List.mem_map] at hp2
      obtain ⟨p2, hp2, rfl⟩ := hp2
      have hwmem := List.mem_filter.1 hw
      have hwsucc : (u, w) ∈ E := mem_succsOf.1 hwmem.1
      have hwnot : w ∉ u :: visited := by
        have := hwmem.2
        simp only [decide_eq_true_eq] at this
        simpa using this
      obtain ⟨hh, hl, hseq, hvis, hnd⟩ := ih hp2 hwnot
      have hp2ne : p2 ≠ [] := by
        intro hEq
        rw [hEq] at hh
        cases hh
      refine ⟨rfl, ?_, ?_, ?_, ?_⟩
      · rw [getLast?_cons_of_ne u p2 hp2ne]
        exact hl
      · cases p2 with
        | nil => exact absurd rfl hp2ne
        | cons x t =>
          have hx : x = w := Option.some.inj hh
          subst hx
          exact isEdgeSeq_cons_cons.2 ⟨hwsucc, hseq⟩
      · intro n hn
        rcases List.mem_cons.1 hn with rfl | hn2
        · exact hu
        · intro hcon
          exact hvis n hn2 (List.mem_cons_of_mem _ hcon)
      · rw [List.nodup_cons]
        refine ⟨fun hcon => ?_, hnd⟩
        exact hvis u hcon (List.mem_cons_self _ _)

theorem simplePathsAux_complete {E : List (String × String)} :
    ∀ {fuel : Nat} {u v : String} {visited p : List String},
      p.head? = some u → p.getLast? = some v → isEdgeSeq E p = true → p.Nodup →
      (∀ n ∈ p, n ∉ visited) → p.length ≤ fuel →
      p ∈ simplePathsAux E fuel u v visited := by
  intro fuel
  induction fuel with
  | zero =>
    intro u v visited p hh _ _ _ _ hlen
    rw [Nat.le_zero, List.length_eq_zero] at hlen
    subst hlen
    cases hh
  | succ f ih =>
    intro u v visited p hh hl hseq hnd hvis hlen
    cases p with
    | nil => cases hh
    | cons a rest =>
      rw [List.head?_cons] at hh
      injection hh with hh
      have hh2 : u = a := hh.symm
      subst hh2
      simp only [simplePathsAux]
      by_cases huv : u = v
      · rw [if_pos huv]
        have hrest : rest = [] := by
          cases rest with
          | nil => rfl
          | cons b t =>
            exfalso
            have hlast : (b :: t).getLast? = some v := by
              rw [getLast?_cons_of_ne u _ (by simp)] at hl
              exact hl
            have hmem : v ∈ b :: t := by
              have : (b :: t).getLastD "" = v := by
                rw [List.getLastD_eq_getLast?, hlast]
                rfl
              rw [← this]
              exact getLastD_mem _ (by simp)
            rw [List.nodup_cons] at hnd
            rw [← huv] at hmem
            exact hnd.1 hmem
        subst hrest
        simp
      · rw [if_neg huv]
        cases rest with
        | nil =>
          exfalso
          rw [List.getLast?_singleton] at hl
          injection hl with hl
          exact huv hl
        | cons w rest2 =>
          rw [List.mem_flatMap]
          have hedge : (u, w) ∈ E := (isEdgeSeq_cons_cons.1 hseq).1
          have hndc := List.nodup_cons.1 hnd
          refine ⟨w, List.mem_filter.2 ⟨mem_succsOf.2 hedge, ?_⟩, ?_⟩
          · simp only [decide_eq_true_eq]
            intro hcon
            rcases List.mem_cons.1 hcon with rfl | hcon2
            · exact hndc.1 (List.mem_cons_self _ _)
            · exact hvis w (by simp) hcon2
          · rw [List.mem_map]
            refine ⟨w :: rest2, ?_, rfl⟩
            apply ih
            · rfl
            · rw [getLast?_cons_of_ne u _ (by simp)] at hl
              exact hl
            · exact (isEdgeSeq_cons_cons.1 hseq).2
            · exact hndc.2
            · intro n hn
              intro hcon
              rcases List.mem_cons.1 hcon with rfl | hcon2
              · exact hndc.1 hn
              · exact hvis n (List.mem_cons_of_mem _ hn) hcon2
            · simpa using Nat.le_of_succ_le_succ hlen

/-! ## Narrative threads (claim C7) -/

theorem dictGet_of_mem_nodup [DecidableEq κ] {l : List (κ × α)}
    (hnd : (l.map Prod.fst).Nodup) {k : κ} {v : α} (h : (k, v) ∈ l) :
    dictGet l k = some v := by
  induction l with
  | nil => cases h
  | cons p t ih =>
    rcases List.mem_cons.1 h with hEq | h2
    · rw [← hEq]
      simp [dictGet, List.find?]
    · have hk : ¬ (p.1 = k) := by
        intro hEq
        have hmem : k ∈ t.map Prod.fst := List.mem_map.2 ⟨(k, v), h2, rfl⟩
        rw [List.map_cons] at hnd
        exact (List.nodup_cons.1 hnd).1 (hEq ▸ hmem)
      have ihr := ih (by rw [List.map_cons] at hnd; exact (List.nodup_cons.1 hnd).2) h2
      simpa [dictGet, List.find?, hk] using ihr

theorem headD_eq_of_head? {p : List String} {s : String} (h : p.head? = some s) :
    p.headD "" = s := by
  cases p with
  | nil => cases h
  | cons a t => exact Option.some.inj h

theorem getLastD_eq_of_getLast? {p : List String} {t : String} (h : p.getLast? = some t) :
    p.getLastD "" = t := by
  rw [List.getLastD_eq_getLast?, h]
  rfl

theorem mem_narrativeIds_iff (c : HybridChain) (hwf : Wf c) (i : String) :
    i ∈ c.narrativeIds ↔ ∃ nar : Narrative, c.get_entity i = some (.narrative nar) := by
  unfold HybridChain.narrativeIds
  rw [List.mem_map]
  constructor
  · rintro ⟨pr, hpr, rfl⟩
    have h1 := List.mem_filter.1 hpr
    obtain ⟨k, e⟩ := pr
    cases e with
    | narrative nar =>
      exact ⟨nar, dictGet_of_mem_nodup hwf.1 h1.1⟩
    | actor a => simp [Entity.isNarrative] at h1
    | action a => simp [Entity.isNarrative] at h1
    | capability a => simp [Entity.isNarrative] at h1
    | infrastructure a => simp [Entity.isNarrative] at h1
    | target a => simp [Entity.isNarrative] at h1
    | effect a => simp [Entity.isNarrative] at h1
  · rintro ⟨nar, hn⟩
    unfold HybridChain.get_entity dictGet at hn
    cases hf : List.find? (fun p => p.1 = i) c.entities with
    | none => rw [hf] at hn; cases hn
    | some pr =>
      rw [hf] at hn
      have hval : pr.2 = .narrative nar := by injection hn
      have hkey : pr.1 = i := by
        have := List.find?_some hf
        simpa using this
      have hmem : pr ∈ c.entities := List.mem_of_find?_eq_some hf
      refine ⟨pr, List.mem_filter.2 ⟨hmem, ?_⟩, hkey⟩
      rw [hval]
      rfl

theorem sources_subset_nodes (c : HybridChain) : c.sources ⊆ c.nodes :=
  fun _ hn => List.mem_of_mem_filter hn

theorem sinks_subset_nodes (c : HybridChain) : c.sinks ⊆ c.nodes :=
  fun _ hn => List.mem_of_mem_filter hn

/-- Every node of a walk whose head is a chain node is a chain node. -/
theorem edgeSeq_subset_nodes {c : HybridChain} (hwf : Wf c) :
    ∀ p, isEdgeSeq c.edgePairs p = true → p.headD "" ∈ c.nodes →
      ∀ n ∈ p, n ∈ c.nodes := by
  intro p
  induction p with
  | nil => intro _ _ n hn; cases hn
  | cons a t ih =>
    intro hseq hhead n hn
    rcases List.mem_cons.1 hn with rfl | hn2
    · exact hhead
    · cases t with
      | nil => cases hn2
      | cons b u =>
        obtain ⟨hab, hrest⟩ := isEdgeSeq_cons_cons.1 hseq
        exact ih hrest ((hwf.2.2 (a, b) hab).2) n hn2

/-- A nodup walk through a well-formed chain has at most `|nodes|`
entries. -/
theorem edgeSeq_length_le {c : HybridChain} (hwf : Wf c) {p : List String}
    (hnd : p.Nodup) (hseq : isEdgeSeq c.edgePairs p = true)
    (hhead : p.headD "" ∈ c.nodes) : p.length ≤ c.nodes.length :=
  (hnd.subperm (fun n hn => edgeSeq_subset_nodes hwf p hseq hhead n hn)).length_le

/-- C7: `narrative_threads` returns exactly the simple directed paths from
a zero-in-degree node to a zero-out-degree node that contain at least one
Narrative entity; with zero Narrative entities it returns `[]`. -/
theorem narrative_threads_spec (c : HybridChain) (hwf : Wf c) :
    (∀ p, p ∈ narrative_threads c ↔
      (p ≠ [] ∧ p.Nodup ∧ isEdgeSeq c.edgePairs p = true ∧
       p.headD "" ∈ c.sources ∧ p.getLastD "" ∈ c.sinks ∧
       ∃ i ∈ p, ∃ nar : Narrative, c.get_entity i = some (.narrative nar))) ∧
    ((∀ i (nar : Narrative), c.get_entity i ≠ some (.narrative nar)) →
      narrative_threads c = []) := by
  have hmain : ∀ p, p ∈ narrative_threads c ↔
      (p ≠ [] ∧ p.Nodup ∧ isEdgeSeq c.edgePairs p = true ∧
       p.headD "" ∈ c.sources ∧ p.getLastD "" ∈ c.sinks ∧
       ∃ i ∈ p, ∃ nar : Narrative, c.get_entity i = some (.narrative nar)) := by
    intro p
    unfold narrative_threads
    by_cases hempty : c.narrativeIds.isEmpty
    · rw [if_pos hempty]
      simp only [List.not_mem_nil, false_iff]
      rintro ⟨_, _, _, _, _, i, hip, nar, hnar⟩
      have : i ∈ c.narrativeIds := (mem_narrativeIds_iff c hwf i).2 ⟨nar, hnar⟩
      rw [List.isEmpty_iff] at hempty
      rw [hempty] at this
      cases this
    · rw [if_neg hempty]
      rw [List.mem_flatMap]
      constructor
      · rintro ⟨s, hs, hp⟩
        rw [List.mem_flatMap] at hp
        obtain ⟨t, ht, hp⟩ := hp
        rw [List.mem_filter] at hp
        obtain ⟨hpath, hany⟩ := hp
        obtain ⟨hh, hl, hseq, _, hnd⟩ := simplePathsAux_sound hpath (by simp)
        have hne : p ≠ [] := by
          intro hEq
          rw [hEq] at hh
          cases hh
        refine ⟨hne, hnd, hseq, ?_, ?_, ?_⟩
        · rw [headD_eq_of_head? hh]
          exact hs
        · rw [getLastD_eq_of_getLast? hl]
          exact ht
        · rw [List.any_eq_true] at hany
          obtain ⟨i, hip, hic⟩ := hany
          rw [List.contains, List.elem_eq_mem, decide_eq_true_eq] at hic
          obtain ⟨nar, hnar⟩ := (mem_narrativeIds_iff c hwf i).1 hic
          exact ⟨i, hip, nar, hnar⟩
      · rintro ⟨hne, hnd, hseq, hsrc, hsnk, i, hip, nar, hnar⟩
        refine ⟨p.headD "", hsrc, ?_⟩
        rw [List.mem_flatMap]
        refine ⟨p.getLastD "", hsnk, ?_⟩
        rw [List.mem_filter]
        constructor
        · apply simplePathsAux_complete (head?_eq_some_headD p hne)
            (getLast?_eq_some_getLastD p hne) hseq hnd (by simp)
          have := edgeSeq_length_le hwf hnd hseq
            (sources_subset_nodes c hsrc)
          omega
        · rw [List.any_eq_true]
          refine ⟨i, hip, ?_⟩
          rw [List.contains, List.elem_eq_mem, decide_eq_true_eq]
          exact (mem_narrativeIds_iff c hwf i).2 ⟨nar, hnar⟩
  refine ⟨hmain, ?_⟩
  intro hno
  rw [List.eq_nil_iff_forall_not_mem]
  intro p hp
  obtain ⟨_, _, _, _, _, i, _, nar, hnar⟩ := (hmain p).1 hp
  exact hno i nar hnar

/-! ## Critical path (claim C3): supporting lemmas -/

theorem argminBy_ne_none {f : α → Rat} {l : List α} (h : l ≠ []) :
    argminBy f l ≠ none := by
  cases l with
  | nil => exact absurd rfl h
  | cons a t =>
    simp only [argminBy]
    cases argminBy f t with
    | none => simp
    | some y =>
      dsimp only
      split <;> simp

theorem argminBy_mem {f : α → Rat} :
    ∀ {l : List α} {x : α}, argminBy f l = some x → x ∈ l ∧ ∀ y ∈ l, f x ≤ f y := by
  intro l
  induction l with
  | nil => intro x h; cases h
  | cons a t ih =>
    intro x h
    simp only [argminBy] at h
    cases ht : argminBy f t with
    | none =>
      rw [ht] at h
      dsimp only at h
      injection h with h
      subst h
      have htnil : t = [] := by
        by_contra hne
        exact argminBy_ne_none hne ht
      subst htnil
      exact ⟨by simp, by intro y hy; simp at hy; subst hy; exact le_refl _⟩
    | some y =>
      rw [ht] at h
      dsimp only at h
      obtain ⟨hym, hymin⟩ := ih ht
      by_cases hc : f a ≤ f y
      · rw [if_pos hc] at h
        injection h with h
        subst h
        refine ⟨by simp, ?_⟩
        intro z hz
        rcases List.mem_cons.1 hz with rfl | hz2
        · exact le_refl _
        · exact le_trans hc (hymin z hz2)
      · rw [if_neg hc] at h
        injection h with h
        subst h
        refine ⟨List.mem_cons_of_mem _ hym, ?_⟩
        intro z hz
        rcases List.mem_cons.1 hz with rfl | hz2
        · exact le_of_not_le hc
        · exact hymin z hz2

theorem weightFn_eq_neg_durOf (c : HybridChain) (v : String) :
    c.weightFn v = -(durOf c v) := by
  unfold HybridChain.weightFn durOf
  cases c.get_entity v with
  | none => simp
  | some e =>
    cases e with
    | action a =>
      cases hdur : a.duration_hours with
      | none => simp [hdur]
      | some d =>
        by_cases hd : d = 0
        · simp [hdur, hd]
        · simp [hdur, hd]
    | actor a => simp
    | capability a => simp
    | infrastructure a => simp
    | narrative a => simp
    | target a => simp
    | effect a => simp

theorem pathWeight_eq_sum_tail (w : String → Rat) :
    ∀ p : List String, pathWeight w p = (p.tail.map w).sum := by
  intro p
  match p with
  | [] => rfl
  | [a] => simp [pathWeight]
  | a :: b :: rest =>
    have := pathWeight_eq_sum_tail w (b :: rest)
    simp only [pathWeight, this, List.tail_cons, List.map_cons, List.sum_cons]

/-- The total weight assigned by the Bellman–Ford call to an augmented
path: the negated total duration of the inner path. -/
theorem pathWeight_aug (c : HybridChain) (hsnk : "__sink__" ∉ c.nodes) (p : List String) :
    pathWeight c.weightFn ("__src__" :: (p ++ ["__sink__"])) = -(totalDuration c p) := by
  rw [pathWeight_eq_sum_tail, List.tail_cons]
  have hterm : durOf c "__sink__" = 0 := by
    unfold durOf HybridChain.get_entity
    rw [dictGet]
    rw [find?_nil_of_keys_not_mem hsnk]
  have : ∀ q : List String, (List.map c.weightFn (q ++ ["__sink__"])).sum =
      -((List.map (durOf c) q).sum) := by
    intro q
    induction q with
    | nil => simp [weightFn_eq_neg_durOf, hterm]
    | cons a t ih =>
      simp only [List.cons_append, List.map_cons, List.sum_cons, ih,
        weightFn_eq_neg_durOf]
      ring
  rw [this p]
  rfl

theorem isEdgeSeq_mono {E E2 : List (String × String)} (hsub : ∀ e ∈ E, e ∈ E2) :
    ∀ p, isEdgeSeq E p = true → isEdgeSeq E2 p = true := by
  intro p
  induction p with
  | nil => intro _; rfl
  | cons a t ih =>
    cases t with
    | nil => intro _; rfl
    | cons b u =>
      intro h
      obtain ⟨h1, h2⟩ := isEdgeSeq_cons_cons.1 h
      exact isEdgeSeq_cons_cons.2 ⟨hsub _ h1, ih h2⟩

theorem isEdgeSeq_iff_chain (E : List (String × String)) :
    ∀ p, isEdgeSeq E p = true ↔ List.Chain' (fun a b => (a, b) ∈ E) p := by
  intro p
  induction p with
  | nil => simp [isEdgeSeq]
  | cons a t ih =>
    cases t with
    | nil => simp [isEdgeSeq]
    | cons b u =>
      rw [isEdgeSeq_cons_cons, List.chain'_cons, ih]

/-- In an acyclic well-formed chain, every walk is a simple path. -/
theorem edgeSeq_nodup_of_acyclic {c : HybridChain} {l : List String} (hwf : Wf c)
    (h : c.get_chain = .ok l) {p : List String}
    (hseq : isEdgeSeq c.edgePairs p = true) : p.Nodup := by
  have hchain := (isEdgeSeq_iff_chain c.edgePairs p).1 hseq
  have hchain2 : List.Chain' (fun a b => l.indexOf a < l.indexOf b) p :=
    List.Chain'.imp (fun a b hab => get_chain_edge_order hwf h (a, b) hab) hchain
  have hpair : List.Pairwise (fun a b => l.indexOf a < l.indexOf b) p := by
    have : IsTrans String (fun a b => l.indexOf a < l.indexOf b) :=
      ⟨fun a b c2 hab hbc => Nat.lt_trans hab hbc⟩
    exact List.chain'_iff_pairwise.1 hchain2
  exact hpair.imp (fun {a b} hab => by
    intro hEq
    rw [hEq] at hab
    exact Nat.lt_irrefl _ hab)

/-- The membership structure of the augmented edge list. -/
theorem mem_augEdges {c : HybridChain} {e : String × String} :
    e ∈ c.augEdges ↔ e ∈ c.edgePairs ∨ (e.1 = "__src__" ∧ e.2 ∈ c.sources) ∨
      (e.1 ∈ c.sinks ∧ e.2 = "__sink__") := by
  unfold HybridChain.augEdges
  rw [List.mem_append, List.mem_append]
  constructor
  · rintro ((h | h) | h)
    · exact .inl h
    · rcases List.mem_map.1 h with ⟨s, hs, rfl⟩
      exact .inr (.inl ⟨rfl, hs⟩)
    · rcases List.mem_map.1 h with ⟨t, ht, rfl⟩
      exact .inr (.inr ⟨ht, rfl⟩)
  · rintro (h | ⟨h1, h2⟩ | ⟨h1, h2⟩)
    · exact .inl (.inl h)
    · refine .inl (.inr (List.mem_map.2 ⟨e.2, h2, ?_⟩))
      cases e
      simp only at h1
      subst h1
      rfl
    · refine .inr (List.mem_map.2 ⟨e.1, h1, ?_⟩)
      cases e
      simp only at h2
      subst h2
      rfl

/-- Middle segment of an augmented path: starting at a real node and
ending at `__sink__`, it is a real path to a sink followed by the one
virtual hop. -/
theorem augPath_mid {c : HybridChain} (hwf : Wf c)
    (hsrc : "__src__" ∉ c.nodes) (hsnk : "__sink__" ∉ c.nodes) :
    ∀ (rest : List String) (x : String), x ∈ c.nodes →
      isEdgeSeq c.augEdges (x :: rest) = true →
      (x :: rest).getLast? = some "__sink__" →
      ∃ p2, rest = p2 ++ ["__sink__"] ∧ isEdgeSeq c.edgePairs (x :: p2) = true ∧
        (x :: p2).getLastD "" ∈ c.sinks ∧ (∀ n ∈ p2, n ∈ c.nodes) := by
  intro rest
  induction rest with
  | nil =>
    intro x hx _ hlast
    exfalso
    rw [List.getLast?_singleton] at hlast
    injection hlast with hlast
    rw [hlast] at hx
    exact hsnk hx
  | cons y rest2 ih =>
    intro x hx hseq hlast
    obtain ⟨hxy, hseq2⟩ := isEdgeSeq_cons_cons.1 hseq
    rcases mem_augEdges.1 hxy with hreal | ⟨h1, _⟩ | ⟨h1, h2⟩
    · -- real edge: recurse
      have hy : y ∈ c.nodes := (hwf.2.2 _ hreal).2
      have hlast2 : (y :: rest2).getLast? = some "__sink__" := by
        rw [getLast?_cons_of_ne x _ (by simp)] at hlast
        exact hlast
      obtain ⟨p3, hp3, hseq3, hsink3, hsub3⟩ := ih y hy hseq2 hlast2
      refine ⟨y :: p3, by rw [hp3]; rfl, ?_, ?_, ?_⟩
      · exact isEdgeSeq_cons_cons.2 ⟨hreal, hseq3⟩
      · rw [getLastD_cons_of_ne x _ (by simp)]
        exact hsink3
      · intro n hn
        rcases List.mem_cons.1 hn with rfl | hn2
        · exact hy
        · exact hsub3 n hn2
    · -- x would be the virtual source, impossible for a real node
      exfalso
      have h1b : x = "__src__" := h1
      rw [h1b] at hx
      exact hsrc hx
    · -- virtual hop to the sink: the walk must stop here
      have h1b : x ∈ c.sinks := h1
      have h2b : y = "__sink__" := h2
      subst h2b
      have hrest2 : rest2 = [] := by
        cases rest2 with
        | nil => rfl
        | cons z u =>
          exfalso
          obtain ⟨hyz, _⟩ := isEdgeSeq_cons_cons.1 hseq2
          rcases mem_augEdges.1 hyz with hr | ⟨hb, _⟩ | ⟨hb, _⟩
          · exact hsnk ((hwf.2.2 _ hr).1)
          · have hb2 : "__sink__" = "__src__" := hb
            exact absurd hb2 (by decide)
          · exact hsnk (sinks_subset_nodes c hb)
      subst hrest2
      exact ⟨[], rfl, rfl, by exact h1b, by intro n hn; cases hn⟩

/-- Full decomposition of an augmented source-to-sink walk. -/
theorem augPath_decomp {c : HybridChain} (hwf : Wf c)
    (hsrc : "__src__" ∉ c.nodes) (hsnk : "__sink__" ∉ c.nodes)
    {q : List String} (hseq : isEdgeSeq c.augEdges q = true)
    (hh : q.head? = some "__src__") (hl : q.getLast? = some "__sink__") :
    ∃ p, q = "__src__" :: (p ++ ["__sink__"]) ∧ IsSourceSinkPath c p ∧
      (∀ n ∈ p, n ∈ c.nodes) := by
  cases q with
  | nil => cases hh
  | cons a rest =>
    have ha : a = "__src__" := Option.some.inj hh
    subst ha
    cases rest with
    | nil =>
      exfalso
      rw [List.getLast?_singleton] at hl
      injection hl with hl
      exact absurd hl (by decide)
    | cons x rest2 =>
      obtain ⟨hfirst, hseq2⟩ := isEdgeSeq_cons_cons.1 hseq
      have hxsrc : x ∈ c.sources := by
        rcases mem_augEdges.1 hfirst with hr | ⟨_, h2⟩ | ⟨h1, _⟩
        · exact absurd ((hwf.2.2 _ hr).1) hsrc
        · exact h2
        · exact absurd (sinks_subset_nodes c h1) hsrc
      have hx : x ∈ c.nodes := sources_subset_nodes c hxsrc
      have hlast2 : (x :: rest2).getLast? = some "__sink__" := by
        rw [getLast?_cons_of_ne _ _ (by simp)] at hl
        exact hl
      obtain ⟨p2, hp2, hseq3, hsink3, hsub3⟩ := augPath_mid hwf hsrc hsnk rest2 x hx hseq2 hlast2
      refine ⟨x :: p2, by rw [hp2]; rfl, ⟨by simp, hseq3, ?_, hsink3⟩, ?_⟩
      · simpa using hxsrc
      · intro n hn
        rcases List.mem_cons.1 hn with rfl | hn2
        · exact hx
        · exact hsub3 n hn2

theorem getLast?_append_singleton (l : List String) (a : String) :
    (l ++ [a]).getLast? = some a := by
  induction l with
  | nil => rfl
  | cons x t ih =>
    rw [List.cons_append, getLast?_cons_of_ne _ _ (by simp)]
    exact ih

/-- The augmentation of a source-to-sink path is a `__src__`-to-`__sink__`
walk in the augmented graph. -/
theorem augPath_of_sourceSink {c : HybridChain} {p : List String}
    (hp : IsSourceSinkPath c p) :
    isEdgeSeq c.augEdges ("__src__" :: (p ++ ["__sink__"])) = true ∧
    ("__src__" :: (p ++ ["__sink__"])).head? = some "__src__" ∧
    ("__src__" :: (p ++ ["__sink__"])).getLast? = some "__sink__" := by
  obtain ⟨hne, hseq, hhead, hlast⟩ := hp
  refine ⟨?_, rfl, ?_⟩
  · -- the edge sequence
    have hmid : ∀ (t : List String) (x : String),
        isEdgeSeq c.edgePairs (x :: t) = true → (x :: t).getLastD "" ∈ c.sinks →
        isEdgeSeq c.augEdges ((x :: t) ++ ["__sink__"]) = true := by
      intro t
      induction t with
      | nil =>
        intro x _ hsnk2
        refine isEdgeSeq_cons_cons.2 ⟨?_, rfl⟩
        exact mem_augEdges.2 (.inr (.inr ⟨by simpa using hsnk2, rfl⟩))
      | cons y u ih =>
        intro x hx hsnk2
        obtain ⟨hxy, hrest⟩ := isEdgeSeq_cons_cons.1 hx
        refine isEdgeSeq_cons_cons.2 ⟨mem_augEdges.2 (.inl hxy), ?_⟩
        apply ih y hrest
        rw [getLastD_cons_of_ne x _ (by simp)] at hsnk2
        exact hsnk2
    cases p with
    | nil => exact absurd rfl hne
    | cons x t =>
      refine isEdgeSeq_cons_cons.2 ⟨?_, hmid t x hseq hlast⟩
      exact mem_augEdges.2 (.inr (.inl ⟨rfl, by simpa using hhead⟩))
  · rw [getLast?_cons_of_ne _ _ (by simp)]
    exact getLast?_append_singleton p _

/-- A nonempty acyclic chain admits a source-to-sink path. -/
theorem exists_sourceSinkPath (c : HybridChain) (hwf : Wf c)
    (hdag : c.is_valid_dag = true) (hne : c.nodes ≠ []) :
    ∃ p, IsSourceSinkPath c p := by
  cases htopo : c.topological_sort with
  | none => simp [HybridChain.is_valid_dag, htopo] at hdag
  | some l =>
    have hchain : c.get_chain = .ok l := by
      unfold HybridChain.get_chain
      rw [htopo]
    have hperm : l.Perm c.nodes := topoAux_perm htopo
    -- from any node there is a walk to a sink
    have hout : ∀ (m : Nat) (x : String), x ∈ c.nodes → l.length - l.indexOf x ≤ m →
        ∃ p, p.head? = some x ∧ isEdgeSeq c.edgePairs p = true ∧
          p.getLastD "" ∈ c.sinks := by
      intro m
      induction m with
      | zero =>
        intro x hx hm
        exfalso
        have : l.indexOf x < l.length := List.indexOf_lt_length.2 (hperm.mem_iff.2 hx)
        omega
      | succ m2 ih =>
        intro x hx hm
        by_cases hdeg : c.outDegree x = 0
        · refine ⟨[x], rfl, rfl, ?_⟩
          unfold HybridChain.sinks
          rw [List.mem_filter]
          exact ⟨hx, by simp [hdeg]⟩
        · have hex : ∃ e ∈ c.edgePairs, e.1 = x := by
            unfold HybridChain.outDegree at hdeg
            have hne2 : c.edgePairs.filter (fun e => decide (e.1 = x)) ≠ [] := by
              intro hEq
              exact hdeg (by rw [hEq]; rfl)
            rcases List.exists_mem_of_ne_nil _ hne2 with ⟨e, he⟩
            have := List.mem_filter.1 he
            exact ⟨e, this.1, by simpa using this.2⟩
          obtain ⟨e, he, hex1⟩ := hex
          have hy : e.2 ∈ c.nodes := (hwf.2.2 e he).2
          have hlt : l.indexOf x < l.indexOf e.2 := by
            have := get_chain_edge_order hwf hchain e he
            rw [hex1] at this
            exact this
          have hy2 : l.indexOf e.2 < l.length := List.indexOf_lt_length.2 (hperm.mem_iff.2 hy)
          obtain ⟨p2, hh2, hseq2, hsnk2⟩ := ih e.2 hy (by omega)
          cases p2 with
          | nil => cases hh2
          | cons b t =>
            have hb : b = e.2 := Option.some.inj hh2
            refine ⟨x :: b :: t, rfl, ?_, ?_⟩
            · refine isEdgeSeq_cons_cons.2 ⟨?_, hseq2⟩
              rw [hb, ← hex1]
              exact he
            · rw [getLastD_cons_of_ne x _ (by simp)]
              exact hsnk2
    obtain ⟨hsne, _⟩ := acyclic_has_source_and_sink c hwf hdag hne
    obtain ⟨s, hs⟩ := List.exists_mem_of_ne_nil _ hsne
    have hsn : s ∈ c.nodes := sources_subset_nodes c hs
    obtain ⟨p, hh, hseq, hsnk2⟩ := hout l.length s hsn (by omega)
    refine ⟨p, ?_, hseq, ?_, hsnk2⟩
    · intro hEq
      rw [hEq] at hh
      cases hh
    · rw [headD_eq_of_head? hh]
      exact hs

theorem aug_nodup {c : HybridChain} (hsrc : "__src__" ∉ c.nodes)
    (hsnk : "__sink__" ∉ c.nodes) {p : List String} (hnd : p.Nodup)
    (hsub : ∀ n ∈ p, n ∈ c.nodes) :
    ("__src__" :: (p ++ ["__sink__"])).Nodup := by
  rw [List.nodup_cons]
  constructor
  · intro hcon
    rcases List.mem_append.1 hcon with h | h
    · exact hsrc (hsub _ h)
    · rw [List.mem_singleton] at h
      exact absurd h (by decide)
  · rw [List.nodup_append]
    refine ⟨hnd, by simp, ?_⟩
    intro a ha hb
    rw [List.mem_singleton] at hb
    subst hb
    exact hsnk (hsub _ ha)

theorem strip_aug {c : HybridChain} (hsrc : "__src__" ∉ c.nodes)
    (hsnk : "__sink__" ∉ c.nodes) {p : List String} (hsub : ∀ n ∈ p, n ∈ c.nodes) :
    ("__src__" :: (p ++ ["__sink__"])).filter
      (fun n => n ≠ "__src__" && n ≠ "__sink__") = p := by
  have hpred : ∀ n ∈ p, (decide (n ≠ "__src__") && decide (n ≠ "__sink__")) = true := by
    intro n hn
    have h1 : n ≠ "__src__" := fun hEq => hsrc (hEq ▸ hsub n hn)
    have h2 : n ≠ "__sink__" := fun hEq => hsnk (hEq ▸ hsub n hn)
    simp [h1, h2]
  rw [List.filter_cons, if_neg (by simp), List.filter_append,
    List.filter_eq_self.2 hpred]
  simp

/-- C3 (amended): on an acyclic chain whose entity ids avoid the two
reserved virtual-node names, `get_critical_path()` returns the empty
sequence for an empty chain, and otherwise a path from a zero-in-degree
node to a zero-out-degree node whose total node duration (an Action
entity contributes its `duration_hours`, every other variant contributes
0) is maximal among all such paths. -/
theorem get_critical_path_spec (c : HybridChain) (hwf : Wf c)
    (hdag : c.is_valid_dag = true)
    (hsrc : "__src__" ∉ c.nodes) (hsnk : "__sink__" ∉ c.nodes) :
    ∃ p, c.get_critical_path = .ok p ∧
      (c.nodes = [] → p = []) ∧
      (c.nodes ≠ [] →
        IsSourceSinkPath c p ∧
        ∀ q, IsSourceSinkPath c q → totalDuration c q ≤ totalDuration c p) := by
  cases htopo : c.topological_sort with
  | none => simp [HybridChain.is_valid_dag, htopo] at hdag
  | some l =>
    have hchain : c.get_chain = .ok l := by
      unfold HybridChain.get_chain
      rw [htopo]
    have hgcp : c.get_critical_path =
        (if c.nodes.length = 0 then Except.ok [] else
          if c.sources.isEmpty || c.sinks.isEmpty then Except.ok l else
            match bellmanFordPath c.augEdges c.weightFn (c.nodes.length + 2)
                "__src__" "__sink__" with
            | some p => Except.ok (p.filter (fun n => n ≠ "__src__" && n ≠ "__sink__"))
            | none => Except.ok []) := by
      unfold HybridChain.get_critical_path
      rw [htopo]
    by_cases hempty : c.nodes.length = 0
    · rw [if_pos hempty] at hgcp
      exact ⟨[], hgcp, fun _ => rfl,
        fun hne => absurd (List.length_eq_zero.1 hempty) hne⟩
    · rw [if_neg hempty] at hgcp
      have hnodes_ne : c.nodes ≠ [] := fun hEq => hempty (by rw [hEq]; rfl)
      obtain ⟨hsne, htne⟩ := acyclic_has_source_and_sink c hwf hdag hnodes_ne
      rw [if_neg (by simp [List.isEmpty_iff, hsne, htne])] at hgcp
      obtain ⟨p0, hp0⟩ := exists_sourceSinkPath c hwf hdag hnodes_ne
      obtain ⟨hseq0, hh0, hl0⟩ := augPath_of_sourceSink hp0
      have hp0sub : ∀ n ∈ p0, n ∈ c.nodes :=
        edgeSeq_subset_nodes hwf p0 hp0.2.1 (sources_subset_nodes c hp0.2.2.1)
      have hp0nd : p0.Nodup := edgeSeq_nodup_of_acyclic hwf hchain hp0.2.1
      have haugnd := aug_nodup hsrc hsnk hp0nd hp0sub
      have hlen : ("__src__" :: (p0 ++ ["__sink__"])).length ≤ c.nodes.length + 2 := by
        have h1 := (hp0nd.subperm hp0sub).length_le
        simp only [List.length_cons, List.length_append, List.length_singleton,
          List.length_nil]
        omega
      have hmem0 : ("__src__" :: (p0 ++ ["__sink__"])) ∈
          simplePathsAux c.augEdges (c.nodes.length + 2) "__src__" "__sink__" [] :=
        simplePathsAux_complete hh0 hl0 hseq0 haugnd (by simp) hlen
      cases hbf : bellmanFordPath c.augEdges c.weightFn (c.nodes.length + 2)
          "__src__" "__sink__" with
      | none =>
        exfalso
        unfold bellmanFordPath at hbf
        exact argminBy_ne_none (List.ne_nil_of_mem hmem0) hbf
      | some qstar =>
        have hgcp2 : c.get_critical_path =
            Except.ok (qstar.filter (fun n => n ≠ "__src__" && n ≠ "__sink__")) := by
          rw [hgcp, hbf]
        unfold bellmanFordPath at hbf
        obtain ⟨hqmem, hqmin⟩ := argminBy_mem hbf
        obtain ⟨hqh, hql, hqseq, _, hqnd⟩ := simplePathsAux_sound hqmem (by simp)
        obtain ⟨pstar, hqdecomp, hpstar, hpsub⟩ := augPath_decomp hwf hsrc hsnk hqseq hqh hql
        have hstrip : qstar.filter (fun n => n ≠ "__src__" && n ≠ "__sink__") = pstar := by
          rw [hqdecomp]
          exact strip_aug hsrc hsnk hpsub
        rw [hstrip] at hgcp2
        refine ⟨pstar, hgcp2, fun hEq => absurd hEq hnodes_ne, fun _ => ⟨hpstar, ?_⟩⟩
        intro q hq
        obtain ⟨hseqq, hhq, hlq⟩ := augPath_of_sourceSink hq
        have hqsub : ∀ n ∈ q, n ∈ c.nodes :=
          edgeSeq_subset_nodes hwf q hq.2.1 (sources_subset_nodes c hq.2.2.1)
        have hqnd2 : q.Nodup := edgeSeq_nodup_of_acyclic hwf hchain hq.2.1
        have haugnd2 := aug_nodup hsrc hsnk hqnd2 hqsub
        have hlen2 : ("__src__" :: (q ++ ["__sink__"])).length ≤ c.nodes.length + 2 := by
          have h1 := (hqnd2.subperm hqsub).length_le
          simp only [List.length_cons, List.length_append, List.length_singleton,
            List.length_nil]
          omega
        have hmemq : ("__src__" :: (q ++ ["__sink__"])) ∈
            simplePathsAux c.augEdges (c.nodes.length + 2) "__src__" "__sink__" [] :=
          simplePathsAux_complete hhq hlq hseqq haugnd2 (by simp) hlen2
        have hmin := hqmin _ hmemq
        rw [hqdecomp, pathWeight_aug c hsnk pstar, pathWeight_aug c hsnk q] at hmin
        linarith

/-! ## JSON round trip (claim C8) -/

@[simp] theorem except_ok_bind {ε α β : Type} (a : α) (f : α → Except ε β) :
    (Except.ok a : Except ε α) >>= f = f a := rfl

@[simp] theorem except_pure_eq_ok {ε α : Type} (a : α) :
    (pure a : Except ε α) = Except.ok a := rfl

theorem parseStrList_dump (xs : List String) : Json.asStrList (strListJson xs) = .ok xs := by
  have h : ∀ ys : List String, parseStrings (ys.map Json.str) = Except.ok ys := by
    intro ys
    induction ys with
    | nil => rfl
    | cons a t ih => simp [parseStrings, Json.asStr, ih]
  exact h xs

theorem asOptStr_dump (x : Option String) : Json.asOptStr (optStrJson x) = .ok x := by
  cases x <;> rfl

theorem asOptRat_dump (x : Option Rat) : Json.asOptRat (optRatJson x) = .ok x := by
  cases x <;> rfl

theorem actorType_roundtrip (t : ActorType) : actorTypeOfStr t.toStr = .ok t := by
  cases t <;> rfl

theorem actionDomain_roundtrip (t : ActionDomain) : actionDomainOfStr t.toStr = .ok t := by
  cases t <;> rfl

theorem capabilityType_roundtrip (t : CapabilityType) :
    capabilityTypeOfStr t.toStr = .ok t := by
  cases t <;> rfl

theorem infrastructureType_roundtrip (t : InfrastructureType) :
    infrastructureTypeOfStr t.toStr = .ok t := by
  cases t <;> rfl

theorem narrativeType_roundtrip (t : NarrativeType) :
    narrativeTypeOfStr t.toStr = .ok t := by
  cases t <;> rfl

theorem effectType_roundtrip (t : EffectType) : effectTypeOfStr t.toStr = .ok t := by
  cases t <;> rfl

theorem edgeType_roundtrip (t : EdgeType) : edgeTypeOfStr t.toStr = .ok t := by
  cases t <;> rfl

theorem actorParse_dump (a : Actor) : Actor.parse a.dump = .ok a := by
  obtain ⟨i, n, t, caps, al, conf⟩ := a
  simp [Actor.parse, Actor.dump, reqField, Json.getField, fieldD, Json.asStr, Json.asRat,
    parseStrList_dump, asOptStr_dump, asOptRat_dump, actorType_roundtrip, List.find?]

theorem actionParse_dump (a : Action) : Action.parse a.dump = .ok a := by
  obtain ⟨i, n, de, dom, atk, dis, sct, aid, pid, tl, dur, sp, det⟩ := a
  simp [Action.parse, Action.dump, reqField, Json.getField, fieldD, Json.asStr, Json.asRat,
    parseStrList_dump, asOptStr_dump, asOptRat_dump, actionDomain_roundtrip, List.find?]

theorem capabilityParse_dump (a : Capability) : Capability.parse a.dump = .ok a := by
  obtain ⟨i, n, ct, de, per, ttl⟩ := a
  simp [Capability.parse, Capability.dump, reqField, Json.getField, fieldD, Json.asStr,
    Json.asRat, Json.asBool, parseStrList_dump, asOptStr_dump, asOptRat_dump,
    capabilityType_roundtrip, List.find?]

theorem infrastructureParse_dump (a : Infrastructure) :
    Infrastructure.parse a.dump = .ok a := by
  obtain ⟨i, n, it, re, dd⟩ := a
  simp [Infrastructure.parse, Infrastructure.dump, reqField, Json.getField, fieldD,
    Json.asStr, Json.asRat, parseStrList_dump, asOptStr_dump, asOptRat_dump,
    infrastructureType_roundtrip, List.find?]

theorem narrativeParse_dump (a : Narrative) : Narrative.parse a.dump = .ok a := by
  obtain ⟨i, n, nt, de, ta, sct, pl⟩ := a
  simp [Narrative.parse, Narrative.dump, reqField, Json.getField, fieldD, Json.asStr,
    Json.asRat, parseStrList_dump, asOptStr_dump, asOptRat_dump,
    narrativeType_roundtrip, List.find?]

theorem targetParse_dump (a : Target) : Target.parse a.dump = .ok a := by
  obtain ⟨i, n, tt, de, vul⟩ := a
  simp [Target.parse, Target.dump, reqField, Json.getField, fieldD, Json.asStr,
    Json.asRat, parseStrList_dump, asOptStr_dump, asOptRat_dump, List.find?]

theorem effectParse_dump (a : Effect) : Effect.parse a.dump = .ok a := by
  obtain ⟨i, n, et, de, sev, rev⟩ := a
  simp [Effect.parse, Effect.dump, reqField, Json.getField, fieldD, Json.asStr,
    Json.asRat, parseStrList_dump, asOptStr_dump, asOptRat_dump,
    effectType_roundtrip, List.find?]

/-- The tagged dump of io.py appends `_type`; field parsers read their
fields by name and are unaffected by the extra key, and the dispatch
recovers the variant. -/
theorem parseEntityTagged_dump (e : Entity) : parseEntityTagged e.dumpTagged = .ok e := by
  cases e with
  | actor a =>
    have h2 : Actor.parse (Entity.actor a).dumpTagged = .ok a := by
      simp [Entity.dumpTagged, Entity.dump, Entity.typeName, Actor.dump, Actor.parse,
        reqField, Json.getField, fieldD, Json.asStr, Json.asRat, Json.asBool,
        parseStrList_dump, asOptStr_dump, asOptRat_dump, actorType_roundtrip, List.find?]
    have h1 : reqField (Entity.actor a).dumpTagged "_type" = .ok (.str "Actor") := rfl
    unfold parseEntityTagged
    rw [h1]
    simp [Json.asStr, h2]
  | action a =>
    have h2 : Action.parse (Entity.action a).dumpTagged = .ok a := by
      simp [Entity.dumpTagged, Entity.dump, Entity.typeName, Action.dump, Action.parse,
        reqField, Json.getField, fieldD, Json.asStr, Json.asRat, Json.asBool,
        parseStrList_dump, asOptStr_dump, asOptRat_dump, actionDomain_roundtrip, List.find?]
    have h1 : reqField (Entity.action a).dumpTagged "_type" = .ok (.str "Action") := rfl
    unfold parseEntityTagged
    rw [h1]
    simp [Json.asStr, h2]
  | capability a =>
    have h2 : Capability.parse (Entity.capability a).dumpTagged = .ok a := by
      simp [Entity.dumpTagged, Entity.dump, Entity.typeName, Capability.dump, Capability.parse,
        reqField, Json.getField, fieldD, Json.asStr, Json.asRat, Json.asBool,
        parseStrList_dump, asOptStr_dump, asOptRat_dump, capabilityType_roundtrip, List.find?]
    have h1 : reqField (Entity.capability a).dumpTagged "_type" = .ok (.str "Capability") := rfl
    unfold parseEntityTagged
    rw [h1]
    simp [Json.asStr, h2]
  | infrastructure a =>
    have h2 : Infrastructure.parse (Entity.infrastructure a).dumpTagged = .ok a := by
      simp [Entity.dumpTagged, Entity.dump, Entity.typeName, Infrastructure.dump, Infrastructure.parse,
        reqField, Json.getField, fieldD, Json.asStr, Json.asRat, Json.asBool,
        parseStrList_dump, asOptStr_dump, asOptRat_dump, infrastructureType_roundtrip, List.find?]
    have h1 : reqField (Entity.infrastructure a).dumpTagged "_type" = .ok (.str "Infrastructure") := rfl
    unfold parseEntityTagged
    rw [h1]
    simp [Json.asStr, h2]
  | narrative a =>
    have h2 : Narrative.parse (Entity.narrative a).dumpTagged = .ok a := by
      simp [Entity.dumpTagged, Entity.dump, Entity.typeName, Narrative.dump, Narrative.parse,
        reqField, Json.getField, fieldD, Json.asStr, Json.asRat, Json.asBool,
        parseStrList_dump, asOptStr_dump, asOptRat_dump, narrativeType_roundtrip, List.find?]
    have h1 : reqField (Entity.narrative a).dumpTagged "_type" = .ok (.str "Narrative") := rfl
    unfold parseEntityTagged
    rw [h1]
    simp [Json.asStr, h2]
  | target a =>
    have h2 : Target.parse (Entity.target a).dumpTagged = .ok a := by
      simp [Entity.dumpTagged, Entity.dump, Entity.typeName, Target.dump, Target.parse,
        reqField, Json.getField, fieldD, Json.asStr, Json.asRat, Json.asBool,
        parseStrList_dump, asOptStr_dump, asOptRat_dump, List.find?]
    have h1 : reqField (Entity.target a).dumpTagged "_type" = .ok (.str "Target") := rfl
    unfold parseEntityTagged
    rw [h1]
    simp [Json.asStr, h2]
  | effect a =>
    have h2 : Effect.parse (Entity.effect a).dumpTagged = .ok a := by
      simp [Entity.dumpTagged, Entity.dump, Entity.typeName, Effect.dump, Effect.parse,
        reqField, Json.getField, fieldD, Json.asStr, Json.asRat, Json.asBool,
        parseStrList_dump, asOptStr_dump, asOptRat_dump, effectType_roundtrip, List.find?]
    have h1 : reqField (Entity.effect a).dumpTagged "_type" = .ok (.str "Effect") := rfl
    unfold parseEntityTagged
    rw [h1]
    simp [Json.asStr, h2]

theorem parseRel_dump (e : (String × String) × EdgeData) :
    parseRel (dumpRel e) = .ok ⟨e.1.1, e.1.2, e.2.edge_type, e.2.resource_id,
      e.2.description⟩ := by
  obtain ⟨⟨u, v⟩, et, rid, de⟩ := e
  simp [parseRel, dumpRel, reqField, Json.getField, fieldD, Json.asStr,
    asOptStr_dump, edgeType_roundtrip, List.find?]

/-- Rebuilding the entity dict through `add_entity`, in serialized order,
appends each entity at its original position. -/
theorem foldl_entities (ents : List (String × Entity)) :
    ∀ acc : HybridChain,
      (acc.entities.map Prod.fst ++ ents.map Prod.fst).Nodup →
      (∀ p ∈ ents, p.2.id = p.1) →
      (ents.map (fun p => (p.1, p.2.dumpTagged))).foldlM
        (fun acc2 p => do
          let e ← parseEntityTagged p.2
          pure (acc2.add_entity e)) acc
      = .ok { acc with entities := acc.entities ++ ents } := by
  induction ents with
  | nil =>
    intro acc _ _
    simp
  | cons pr rest ih =>
    intro acc hnd hkm
    obtain ⟨k, e⟩ := pr
    have hid : e.id = k := hkm (k, e) (by simp)
    rw [List.map_cons, List.foldlM_cons, parseEntityTagged_dump]
    rw [except_ok_bind, except_pure_eq_ok, except_ok_bind]
    have hknot : k ∉ acc.entities.map Prod.fst := by
      intro hcon
      have hnd2 : (acc.entities.map Prod.fst ++ k :: rest.map Prod.fst).Nodup := hnd
      have hdisj := (List.nodup_append.1 hnd2).2.2
      exact hdisj hcon (by simp)
    have hadd : acc.add_entity e = { acc with entities := acc.entities ++ [(k, e)] } := by
      unfold HybridChain.add_entity
      rw [hid]
      unfold dictInsert
      rw [if_neg (hid ▸ hknot)]
    rw [hadd]
    have hnd2 : (({ acc with entities := acc.entities ++ [(k, e)] } :
        HybridChain).entities.map Prod.fst ++ rest.map Prod.fst).Nodup := by
      simp only [List.map_append, List.map_cons, List.map_nil] at *
      simpa [List.append_assoc] using hnd
    have := ih { acc with entities := acc.entities ++ [(k, e)] } hnd2
      (fun p hp => hkm p (List.mem_cons_of_mem _ hp))
    rw [this]
    simp [List.append_assoc]

/-- Rebuilding the edge dict through `add_relationship`, in serialized
order, appends each edge at its original position. -/
theorem foldl_edges (eds : List ((String × String) × EdgeData)) :
    ∀ acc : HybridChain,
      (acc.edges.map Prod.fst ++ eds.map Prod.fst).Nodup →
      (∀ ed ∈ eds, ed.1.1 ∈ acc.nodes ∧ ed.1.2 ∈ acc.nodes) →
      (eds.map dumpRel).foldlM
        (fun acc2 rj => do
          let r ← parseRel rj
          acc2.add_relationship r) acc
      = .ok { acc with edges := acc.edges ++ eds } := by
  induction eds with
  | nil =>
    intro acc _ _
    simp
  | cons ed rest ih =>
    intro acc hnd hends
    rw [List.map_cons, List.foldlM_cons, parseRel_dump, except_ok_bind]
    obtain ⟨hu, hv⟩ := hends ed (by simp)
    have hknot : ed.1 ∉ acc.edges.map Prod.fst := by
      intro hcon
      have hnd2 : (acc.edges.map Prod.fst ++ ed.1 :: rest.map Prod.fst).Nodup := hnd
      have hdisj := (List.nodup_append.1 hnd2).2.2
      exact hdisj hcon (by simp)
    have hadd : acc.add_relationship ⟨ed.1.1, ed.1.2, ed.2.edge_type, ed.2.resource_id,
        ed.2.description⟩ = .ok { acc with edges := acc.edges ++ [ed] } := by
      unfold HybridChain.add_relationship
      rw [if_neg (by simpa using hu), if_neg (by simpa using hv)]
      unfold dictInsert
      rw [if_neg (by simpa using hknot)]
    rw [hadd, except_ok_bind]
    have hnd2 : (({ acc with edges := acc.edges ++ [ed] } :
        HybridChain).edges.map Prod.fst ++ rest.map Prod.fst).Nodup := by
      simp only [List.map_append, List.map_cons, List.map_nil] at *
      simpa [List.append_assoc] using hnd
    have := ih { acc with edges := acc.edges ++ [ed] } hnd2
      (fun p hp => hends p (List.mem_cons_of_mem _ hp))
    rw [this]
    simp [List.append_assoc]

/-- C8: serializing and deserializing a well-formed chain whose entity
dict keys are the entities' own ids reproduces the chain exactly — in
particular the entity count, the relationship count, and every per-id
attribute value and variant tag. -/
theorem from_json_to_json (c : HybridChain) (hwf : Wf c)
    (hkm : ∀ p ∈ c.entities, p.2.id = p.1) :
    from_json (to_json c) = .ok c := by
  have hstep : from_json (to_json c) =
      ((c.entities.map (fun p => (p.1, p.2.dumpTagged))).foldlM
        (fun acc2 p => do
          let e ← parseEntityTagged p.2
          pure (acc2.add_entity e)) (HybridChain.init c.chain_id c.name c.description)) >>=
      (fun c1 => (c.edges.map dumpRel).foldlM
        (fun acc2 rj => do
          let r ← parseRel rj
          acc2.add_relationship r) c1) := rfl
  rw [hstep]
  have h1 := foldl_entities c.entities (HybridChain.init c.chain_id c.name c.description)
    (by simpa [HybridChain.init] using hwf.1) hkm
  rw [h1, except_ok_bind]
  have h2 := foldl_edges c.edges
    ({ HybridChain.init c.chain_id c.name c.description with
        entities := (HybridChain.init c.chain_id c.name c.description).entities ++ c.entities })
    (by simpa [HybridChain.init] using hwf.2.1)
    (by
      intro ed hed
      have := hwf.2.2 ed.1 (List.mem_map_of_mem Prod.fst hed)
      simpa [HybridChain.init, HybridChain.nodes] using this)
  rw [h2]
  obtain ⟨cid, nm, desc, ents, eds⟩ := c
  simp [HybridChain.init]

/-! ## Witnesses and counterexamples at the concrete chains -/

/-- C1 witness: the hypotheses of `get_chain_topological` hold at `wChain`
and the theorem applies there. -/
theorem get_chain_topological_witness :
    Wf wChain ∧ wChain.get_chain = .ok ["a", "b", "n"] ∧
    (List.Perm ["a", "b", "n"] wChain.nodes ∧
      ∀ e ∈ wChain.edges,
        (["a", "b", "n"] : List String).indexOf e.1.1 <
          (["a", "b", "n"] : List String).indexOf e.1.2) :=
  ⟨by decide, by decide,
    get_chain_topological wChain (by decide) ["a", "b", "n"] (by decide)⟩

/-- C2 witness: `cycChain` is well-formed and cyclic, and all three
queries fail on it. -/
theorem cycle_all_queries_fail_witness :
    Wf cycChain ∧ HasCycle cycChain ∧
    (cycChain.is_valid_dag = false ∧
      cycChain.get_chain = .error "Chain contains cycles - not a valid DAG" ∧
      cycChain.get_critical_path = .error "Chain contains cycles - not a valid DAG") :=
  have hcyc : HasCycle cycChain := ⟨["a", "b", "a"], by decide, by decide, by decide⟩
  ⟨by decide, hcyc, cycle_all_queries_fail cycChain (by decide) hcyc⟩

unseal Rat.add Rat.sub Rat.mul Rat.inv in
/-- C3 counterexample: `clashChain` is a well-formed acyclic nonempty
chain (its single entity id is the reserved name `__src__`), yet
`get_critical_path()` returns the empty list, which is not a path from a
zero-in-degree node to a zero-out-degree node — refuting the claim as
stated for every acyclic chain. -/
theorem get_critical_path_claim_counterexample :
    Wf clashChain ∧ clashChain.is_valid_dag = true ∧ clashChain.nodes ≠ [] ∧
    clashChain.get_critical_path = .ok [] ∧ ¬ IsSourceSinkPath clashChain [] :=
  ⟨by decide, by decide, by decide, by decide, fun h => h.1 rfl⟩

/-- C3 witness: the hypotheses of `get_critical_path_spec` hold at
`wChain` and the theorem applies there. -/
theorem get_critical_path_spec_witness :
    Wf wChain ∧ wChain.is_valid_dag = true ∧
    "__src__" ∉ wChain.nodes ∧ "__sink__" ∉ wChain.nodes ∧
    (∃ p, wChain.get_critical_path = .ok p ∧
      (wChain.nodes = [] → p = []) ∧
      (wChain.nodes ≠ [] →
        IsSourceSinkPath wChain p ∧
        ∀ q, IsSourceSinkPath wChain q →
          totalDuration wChain q ≤ totalDuration wChain p)) :=
  ⟨by decide, by decide, by decide, by decide,
    get_critical_path_spec wChain (by decide) (by decide) (by decide) (by decide)⟩

/-- C4 witness: a relationship whose target id is absent is rejected at
`wChain`, by the theorem. -/
theorem add_relationship_iff_and_frame_witness :
    (wChain.add_relationship ⟨"a", "zzz", .dependency, none, ""⟩).isOk = false ∧
    "zzz" ∉ wChain.nodes :=
  ⟨(add_relationship_iff_and_frame wChain ⟨"a", "zzz", .dependency, none, ""⟩).1.2
      (.inr (by decide)),
    by decide⟩

unseal Rat.add Rat.sub Rat.mul Rat.inv in
/-- C5 counterexample: `negChain` is well-formed and constructible through
the public API, yet its ranking contains a negative score (its Action has
`success_probability = 3`, which the entity model does not forbid) —
refuting the claim that no score is negative for every input chain. -/
theorem intervention_ranking_claim_counterexample :
    Wf negChain ∧
    (intervention_ranking negChain).any (fun e => decide (e.score < 0)) = true :=
  ⟨by decide, by decide⟩

/-- C5 witness: the hypothesis of `intervention_ranking_spec` holds at
`wChain` and the theorem applies there. -/
theorem intervention_ranking_spec_witness :
    Wf wChain ∧
    (List.Pairwise (fun a b : RankEntry => b.score ≤ a.score) (intervention_ranking wChain) ∧
      ((intervention_ranking wChain).map (fun e => e.node_id)).Perm wChain.nodes ∧
      (∀ e ∈ intervention_ranking wChain, ∃ S : Finset String,
        (∀ m, m ∈ S ↔ m ∈ wChain.nodes ∧ m ≠ e.node_id ∧
          Reaches wChain.edgePairs e.node_id m) ∧
        e.score = roundTo2 ((S.card : Rat) * (1 + (wChain.inDegree e.node_id : Rat)) *
          fragility wChain e.node_id)) ∧
      ((∀ i (a : Action), wChain.get_entity i = some (.action a) →
          a.success_probability ≤ 2) →
        ∀ e ∈ intervention_ranking wChain, 0 ≤ e.score)) :=
  ⟨by decide, intervention_ranking_spec wChain (by decide)⟩

/-- C6 witness: the hypotheses of `intervention_score_spec` hold at
`wChain` with node `a` and the theorem applies there. -/
theorem intervention_score_spec_witness :
    Wf wChain ∧ "a" ∈ wChain.nodes ∧
    (∃ (k : Nat) (S : Finset String),
      wChain.intervention_score "a" = .ok k ∧
      (∀ m, m ∈ S ↔ m ∈ wChain.nodes ∧ m ≠ "a" ∧ Reaches wChain.edgePairs "a" m) ∧
      k = S.card ∧
      ((∀ m, ¬ (m ≠ "a" ∧ Reaches wChain.edgePairs "a" m)) → k = 0)) :=
  ⟨by decide, by decide, intervention_score_spec wChain "a" (by decide) (by decide)⟩

/-- C7 witness: the hypothesis of `narrative_threads_spec` holds at
`wChain` and the theorem applies there. -/
theorem narrative_threads_spec_witness :
    Wf wChain ∧
    ((∀ p, p ∈ narrative_threads wChain ↔
      (p ≠ [] ∧ p.Nodup ∧ isEdgeSeq wChain.edgePairs p = true ∧
       p.headD "" ∈ wChain.sources ∧ p.getLastD "" ∈ wChain.sinks ∧
       ∃ i ∈ p, ∃ nar : Narrative, wChain.get_entity i = some (.narrative nar))) ∧
    ((∀ i (nar : Narrative), wChain.get_entity i ≠ some (.narrative nar)) →
      narrative_threads wChain = [])) :=
  ⟨by decide, narrative_threads_spec wChain (by decide)⟩

/-- C8 witness: the hypotheses of `from_json_to_json` hold at `wChain` and
the round trip reproduces it. -/
theorem from_json_to_json_witness :
    Wf wChain ∧ (∀ p ∈ wChain.entities, p.2.id = p.1) ∧
    from_json (to_json wChain) = .ok wChain :=
  ⟨by decide, by decide, from_json_to_json wChain (by decide) (by decide)⟩

unseal Rat.add Rat.sub Rat.mul Rat.inv in
/-- C9 counterexample: the cyclic `cycChain` has no zero-in-degree node,
yet `get_critical_path()` raises its CycleError instead of falling back to
a topological order — refuting the claimed fallback behaviour. -/
theorem critical_path_fallback_counterexample :
    Wf cycChain ∧ cycChain.sources = [] ∧
    cycChain.get_critical_path = .error "Chain contains cycles - not a valid DAG" :=
  ⟨by decide, by decide, by decide⟩

/-- C9 witness: the hypotheses of `no_source_or_sink_raises` hold at
`cycChain` and the theorem applies there. -/
theorem no_source_or_sink_raises_witness :
    Wf cycChain ∧ cycChain.nodes ≠ [] ∧
    (cycChain.sources = [] ∨ cycChain.sinks = []) ∧
    cycChain.get_critical_path = .error "Chain contains cycles - not a valid DAG" :=
  ⟨by decide, by decide, by decide,
    no_source_or_sink_raises cycChain (by decide) (by decide) (by decide)⟩

/-- C10 witness: overwriting the entity stored at id `a` of `wChain`
replaces it and changes nothing else, by the theorem. -/
theorem add_entity_overwrite_witness :
    ("a" ∈ wChain.nodes) ∧
    ((wChain.add_entity (.actor ⟨"a", "Mallory", .criminal, [], [], 1/2⟩)).get_entity "a" =
        some (.actor ⟨"a", "Mallory", .criminal, [], [], 1/2⟩) ∧
      (∀ k, k ≠ "a" →
        (wChain.add_entity (.actor ⟨"a", "Mallory", .criminal, [], [], 1/2⟩)).get_entity k =
          wChain.get_entity k) ∧
      (wChain.add_entity (.actor ⟨"a", "Mallory", .criminal, [], [], 1/2⟩)).nodes =
        wChain.nodes ∧
      (wChain.add_entity (.actor ⟨"a", "Mallory", .criminal, [], [], 1/2⟩)).edges =
        wChain.edges ∧
      (wChain.add_entity (.actor ⟨"a", "Mallory", .criminal, [], [], 1/2⟩)).chain_id =
        wChain.chain_id ∧
      (wChain.add_entity (.actor ⟨"a", "Mallory", .criminal, [], [], 1/2⟩)).name =
        wChain.name ∧
      (wChain.add_entity (.actor ⟨"a", "Mallory", .criminal, [], [], 1/2⟩)).description =
        wChain.description) :=
  ⟨by decide,
    add_entity_overwrite wChain (.actor ⟨"a", "Mallory", .criminal, [], [], 1/2⟩) (by decide)⟩

end ThreadMap
